import Mathlib

/-!
Verification of `scripts/sync_qualtrics_petitions.py`, the Qualtrics → Jekyll
petition synchronizer.

Shallow embedding conventions:

* Text is modelled as `List Char` (`Str`).  Python `str` operations used by the
  script (`strip`, `lower`, `find`, `splitlines`, `replace`, slicing) are
  re-implemented on `Str` below, restricted to the ASCII behaviour the script
  relies on.
* The petitions directory is modelled as an association list
  `FSt = List (Str × Str)` of (file name, file content) pairs; all paths the
  script touches live in the single `_petitions` directory, so the constant
  directory prefix is dropped and `Path.resolve` is the identity (no symlinks
  in scope).  List order stands for `glob` enumeration order.
* `encrypted_response_token` (HMAC-SHA256 + urlsafe base64, a pure function of
  `response_id` and `key`) is abstracted as a parameter
  `tok : Str → Str → Str`; no claim depends on the concrete digest, and every
  theorem below is proved for an arbitrary `tok`, which only strengthens them.
* The network layer (`api_request`, `start_export`, `wait_for_export`,
  `download_export_zip`) and the zip/binary decoding in `rows_from_zip` are
  I/O glue out of scope; `rows_from_zip` is embedded from the point where
  `csv.reader` has produced the header row and the data rows.
* Environment access is modelled by passing the environment as an association
  list; `load_config` returns `Except` where the script raises.
-/

abbrev Str := List Char

/-- Python's default `str.strip` whitespace set (ASCII part; the fields in
scope are ASCII). -/
def isPyWS (c : Char) : Bool :=
  c = ' ' ∨ c = '\t' ∨ c = '\n' ∨ c = '\r' ∨ c = '\x0b' ∨ c = '\x0c'

/-- `s.strip()` — drop leading and trailing whitespace. -/
def trimS (s : Str) : Str :=
  ((s.dropWhile isPyWS).reverse.dropWhile isPyWS).reverse

/-- `s.strip(ch)` for a single character `ch`. -/
def stripCh (ch : Char) (s : Str) : Str :=
  ((s.dropWhile (· = ch)).reverse.dropWhile (· = ch)).reverse

/-- `s.rstrip()` — drop trailing whitespace. -/
def rstripS (s : Str) : Str :=
  (s.reverse.dropWhile isPyWS).reverse

/-- `s.lower()` (ASCII). -/
def lowerS (s : Str) : Str :=
  s.map Char.toLower

/-- `yaml_quote`: escape backslashes and double quotes, then wrap in quotes.
The script does two sequential `replace` calls; on any input this equals the
single pass below (original `\` becomes `\\`, original `"` becomes `\"`). -/
def escapeYaml : Str → Str
  | [] => []
  | '\\' :: rest => '\\' :: '\\' :: escapeYaml rest
  | '"' :: rest => '\\' :: '"' :: escapeYaml rest
  | c :: rest => c :: escapeYaml rest

def yaml_quote (value : Str) : Str :=
  '"' :: escapeYaml value ++ ['"']

/-- The two `replace` calls of `normalize_body`: `\r\n → \n` then `\r → \n`. -/
def normalizeNewlines : Str → Str
  | [] => []
  | '\r' :: '\n' :: rest => '\n' :: normalizeNewlines rest
  | '\r' :: rest => '\n' :: normalizeNewlines rest
  | c :: rest => c :: normalizeNewlines rest

def normalize_body (value : Str) : Str :=
  trimS (normalizeNewlines value)

/-- `parse_bool_token`. -/
def parse_bool_token (value : Str) : Option Bool :=
  let normalized := lowerS (trimS value)
  if normalized ∈ [('1' : Char) :: [], "true".toList, "t".toList, "yes".toList, "y".toList] then
    some true
  else if normalized ∈ [('0' : Char) :: [], "false".toList, "f".toList, "no".toList, "n".toList] then
    some false
  else
    none

/-- `published_matches`. -/
def published_matches (value expected : Str) : Bool :=
  let value_normalized := trimS value
  let expected_normalized := trimS expected
  if value_normalized = expected_normalized then
    true
  else
    match parse_bool_token value_normalized, parse_bool_token expected_normalized with
    | some vb, some eb => vb = eb
    | _, _ => false

/-- `text.find(pat, start)` restricted to what the script needs: search for
`pat` from the head of `s`, reporting the offset; the caller adds the start
offset.  `none` models Python's `-1`. -/
def findSub : Str → Str → Nat → Option Nat
  | [], pat, i => if pat = [] then some i else none
  | s@(_ :: rest), pat, i =>
    if pat.isPrefixOf s then some i else findSub rest pat (i + 1)

/-- Python line-break characters recognised by `str.splitlines` (ASCII and the
Latin-1/Unicode breaks; `\r\n` is handled as one break in `splitlinesS`). -/
def isLineBreak (c : Char) : Bool :=
  c = '\n' ∨ c = '\r' ∨ c = '\x0b' ∨ c = '\x0c' ∨ c = '\x1c' ∨ c = '\x1d' ∨
    c = '\x1e' ∨ c = '\x85' ∨ c.toNat = 0x2028 ∨ c.toNat = 0x2029

/-- `s.splitlines()`: no trailing empty line for a trailing break. -/
def splitlinesAux : Str → Str → List Str
  | [], acc => if acc = [] then [] else [acc.reverse]
  | '\r' :: '\n' :: rest, acc => acc.reverse :: splitlinesAux rest []
  | c :: rest, acc =>
    if isLineBreak c then acc.reverse :: splitlinesAux rest []
    else splitlinesAux rest (c :: acc)

def splitlinesS (s : Str) : List Str :=
  splitlinesAux s []

/-- The loop body of `read_front_matter_value`: scan the front-matter lines for
the first one starting with `key ++ ":"`, and return the value after the first
colon, stripped of whitespace and then of double/single quotes.  (The keys the
script uses contain no colon, so the first colon of a matching line is the one
ending the key, and `line.split(":", 1)[1]` is `line` with `key ++ ":"`
removed.) -/
def frontMatterLookup (key : Str) : List Str → Option Str
  | [] => none
  | line :: rest =>
    if (key ++ [':']).isPrefixOf line then
      some (stripCh '\'' (stripCh '"' (trimS (line.drop (key.length + 1)))))
    else
      frontMatterLookup key rest

/-- `read_front_matter_value` (the file content is passed directly; the `OSError`
branch of the script corresponds to a path that is not in the file system map,
handled by the callers below). -/
def read_front_matter_value (text : Str) (key : Str) : Option Str :=
  if "---\n".toList.isPrefixOf text then
    match findSub (text.drop 4) "\n---\n".toList 4 with
    | none => none
    | some e => frontMatterLookup key ((text.drop 4).take (e - 4) |> splitlinesS)
  else
    none

/-- `render_markdown`.  `"\n".join(front)` with the trailing `""` element
produces the header ending in `"---\n"`, then `body.rstrip() + "\n"`. -/
def render_markdown (title body response_id recorded_date : Str) : Str :=
  "---\nlayout: petition\ntitle: ".toList ++ yaml_quote title ++
    "\nqualtrics_response_id: \"".toList ++ response_id ++
    "\"\nqualtrics_recorded_date: \"".toList ++ recorded_date ++
    "\"\nsource: qualtrics\n---\n".toList ++ rstripS body ++ ['\n']

/-! ### The petitions directory -/

/-- The `_petitions` directory: file name ↦ file content, no duplicate names. -/
abbrev FSt := List (Str × Str)

def lookupFS : FSt → Str → Option Str
  | [], _ => none
  | e :: rest, p => if e.1 = p then some e.2 else lookupFS rest p

/-- `path.exists()`. -/
def existsFS (fs : FSt) (p : Str) : Bool :=
  (lookupFS fs p).isSome

/-- `path.write_text(content)`: overwrite in place, or append a new entry. -/
def writeFS : FSt → Str → Str → FSt
  | [], p, c => [(p, c)]
  | e :: rest, p, c =>
    if e.1 = p then (p, c) :: rest else e :: writeFS rest p c

/-- `src.rename(dst)` (POSIX: an existing `dst` is replaced).  A missing `src`
would raise in Python; the runs below only rename paths present in the map, and
on a missing `src` this model leaves the directory unchanged. -/
def renameFS (fs : FSt) (src dst : Str) : FSt :=
  match lookupFS fs src with
  | none => fs
  | some c => (fs.filter fun e => ¬(e.1 = src ∨ e.1 = dst)) ++ [(dst, c)]

/-- The response-id ↦ path map (`Dict[str, Path]`); updates prepend, lookups
take the first hit, which models Python dict overwrite semantics. -/
abbrev Idx := List (Str × Str)

def getIdx : Idx → Str → Option Str
  | [], _ => none
  | e :: rest, k => if e.1 = k then some e.2 else getIdx rest k

/-- The front-matter key through which a document carries its externalId. -/
def parseId (content : Str) : Option Str :=
  read_front_matter_value content "qualtrics_response_id".toList

/-- The loop body of `scan_existing_petitions`: index a `*.md` file under its
non-empty front-matter response id. -/
def scanEntry (m : Idx) (e : Str × Str) : Idx :=
  if ".md".toList.isSuffixOf e.1 then
    match parseId e.2 with
    | some rid => if rid = [] then m else (rid, e.1) :: m
    | none => m
  else m

/-- `scan_existing_petitions`: every `*.md` file whose front matter carries a
non-empty `qualtrics_response_id` is indexed; later files win on duplicate ids
(dict assignment). -/
def scan_existing_petitions (fs : FSt) : Idx :=
  fs.foldl scanEntry []

/-! ### Path resolution (`choose_petition_path`) -/

def digitChar (d : Nat) : Char :=
  "0123456789".toList.getD d '0'

/-- Decimal rendering of a counter, as Python `str(n)` / f-string formatting
produces it. -/
def toDec (n : Nat) : Str :=
  if _h : n < 10 then [digitChar n]
  else toDec (n / 10) ++ [digitChar (n % 10)]
decreasing_by exact Nat.div_lt_self (by omega) (by omega)

/-- The candidate file name the probing loop examines for counter value `k`:
`base.md` for the initial candidate (`k ≤ 1`), `base-k.md` afterwards. -/
def candidateName (base : Str) (k : Nat) : Str :=
  if k ≤ 1 then base ++ ".md".toList
  else base ++ ['-'] ++ toDec k ++ ".md".toList

/-- The `while candidate.exists()` loop of `choose_petition_path`, with an
explicit iteration bound.  The loop stops at the first candidate that either
does not exist or is the caller's current path (`Path.resolve` is the identity
here); `choose_petition_path_total` below shows the bound
`fs.length + 1` is never exhausted, so this equals the unbounded Python loop. -/
def probeAux (fs : FSt) (current : Option Str) (base : Str) : Nat → Nat → Str
  | 0, k => candidateName base k
  | fuel + 1, k =>
    let candidate := candidateName base k
    if existsFS fs candidate ∧ ¬current = some candidate then
      probeAux fs current base fuel (k + 1)
    else
      candidate

/-- `choose_petition_path`, over the abstract token function `tok` (standing
for `encrypted_response_token`). -/
def choose_petition_path (tok : Str → Str → Str) (response_id key : Str)
    (current : Option Str) (fs : FSt) : Str :=
  probeAux fs current ("petition-".toList ++ tok response_id key) (fs.length + 1) 1

/-! ### Configuration and row extraction -/

/-- `QualtricsConfig`.  The networking and polling fields (`base_url`,
`api_token`, `survey_id`, `poll_interval_seconds`, `poll_timeout_seconds`) are
consumed only by the HTTP layer, which is out of scope; the first three are
kept as opaque strings and the two float-valued polling knobs are omitted. -/
structure QualtricsConfig where
  base_url : Str
  api_token : Str
  survey_id : Str
  title_column : Str
  body_column : Str
  response_id_column : Str
  published_column : Str
  published_value : Str
  recorded_date_column : Str
  url_encryption_key : Str
deriving DecidableEq, Repr

structure PetitionRow where
  title : Str
  body : Str
  response_id : Str
  recorded_date : Str
  is_published : Bool
deriving DecidableEq, Repr

/-- The `header_index` dict comprehension: trimmed header ↦ column position,
later duplicates overwriting earlier ones. -/
def headerIndex (headers : List Str) : List (Str × Nat) :=
  (headers.enum.foldl (fun m hi => (trimS hi.2, hi.1) :: m) [])

def getHIdx : List (Str × Nat) → Str → Option Nat
  | [], _ => none
  | e :: rest, k => if e.1 = k then some e.2 else getHIdx rest k

/-- The local `cell` helper of `rows_from_zip`: empty column name or a missing
or out-of-range column yields the empty string, else the stripped cell. -/
def cellLookup (hidx : List (Str × Nat)) (values : List Str) (column_name : Str) : Str :=
  if column_name = [] then []
  else
    match getHIdx hidx column_name with
    | none => []
    | some idx => if idx < values.length then trimS (values.getD idx []) else []

/-- `required_columns` as assembled in `rows_from_zip`. -/
def requiredColumns (cfg : QualtricsConfig) : List Str :=
  [cfg.title_column, cfg.body_column, cfg.response_id_column, cfg.published_column] ++
    (if cfg.recorded_date_column = [] then [] else [cfg.recorded_date_column])

/-- Code-point order on strings (Python's `<` on `str`, used by `sorted`). -/
def strLt : Str → Str → Bool
  | [], [] => false
  | [], _ :: _ => true
  | _ :: _, [] => false
  | a :: as, b :: bs => if a = b then strLt as bs else a.toNat < b.toNat

def insertSortedUnique (x : Str) : List Str → List Str
  | [] => [x]
  | y :: ys => if x = y then y :: ys
    else if strLt x y then x :: y :: ys
    else y :: insertSortedUnique x ys

/-- `sorted({...})`: deduplicate and sort. -/
def sortedDedup (l : List Str) : List Str :=
  l.foldl (fun acc x => insertSortedUnique x acc) []

/-- One data row of the CSV turned into a `PetitionRow` (the loop body of
`rows_from_zip`). -/
def mkPetitionRow (cfg : QualtricsConfig) (hidx : List (Str × Nat))
    (values : List Str) : PetitionRow :=
  { title := cellLookup hidx values cfg.title_column
    body := normalize_body (cellLookup hidx values cfg.body_column)
    response_id := cellLookup hidx values cfg.response_id_column
    recorded_date := cellLookup hidx values cfg.recorded_date_column
    is_published :=
      published_matches (cellLookup hidx values cfg.published_column) cfg.published_value }

/-- `rows_from_zip`, embedded from the point where the zip container has been
opened and `csv.reader` has yielded the header row (`none` when the CSV is
empty) and the data rows.  The error value is the sorted, deduplicated list of
missing required column names that the script joins into its `RuntimeError`
message. -/
def rows_from_zip (headers : Option (List Str)) (dataRows : List (List Str))
    (cfg : QualtricsConfig) : Except (List Str) (List PetitionRow) :=
  match headers with
  | none => .ok []
  | some hs =>
    let hidx := headerIndex hs
    let missing_columns := sortedDedup
      ((requiredColumns cfg).filter fun name => ¬name = [] ∧ getHIdx hidx name = none)
    if missing_columns = [] then
      .ok (dataRows.map (mkPetitionRow cfg hidx))
    else
      .error missing_columns

/-! ### Configuration loading (`load_config`) -/

abbrev Env := List (Str × Str)

def envGet : Env → Str → Option Str
  | [], _ => none
  | e :: rest, name => if e.1 = name then some e.2 else envGet rest name

/-- `env_required`: a missing variable reads as `""`; blank-after-strip is
missing. -/
def env_required (env : Env) (name : Str) : Except Str Str :=
  let value := trimS ((envGet env name).getD [])
  if value = [] then
    .error ("Missing required environment variable: ".toList ++ name)
  else
    .ok value

/-- `env_optional`. -/
def env_optional (env : Env) (name : Str) (dflt : Str) : Str :=
  match envGet env name with
  | none => trimS dflt
  | some value =>
    let value := trimS value
    if value = [] then trimS dflt else value

/-- `s.rstrip("/")`. -/
def rstripSlash (s : Str) : Str :=
  (s.reverse.dropWhile (· = '/')).reverse

/-- `load_config` over an explicit environment.  The two float-valued polling
fields are omitted (see `QualtricsConfig`).  The script builds the config
record, validates it, then re-defaults a blank published column/value; the
construction is inlined here with identical semantics. -/
def load_config (env : Env) : Except Str QualtricsConfig :=
  match env_required env "QUALTRICS_BASE_URL".toList,
      env_required env "QUALTRICS_API_TOKEN".toList,
      env_required env "QUALTRICS_SURVEY_ID".toList,
      env_required env "QUALTRICS_TITLE_COLUMN".toList,
      env_required env "QUALTRICS_BODY_COLUMN".toList,
      env_required env "QUALTRICS_URL_ENCRYPTION_KEY".toList with
  | .ok base_url, .ok api_token, .ok survey_id, .ok title_column, .ok body_column,
      .ok url_encryption_key =>
    if title_column = body_column then
      .error "QUALTRICS_TITLE_COLUMN and QUALTRICS_BODY_COLUMN must be different columns".toList
    else if url_encryption_key.length < 16 then
      .error "QUALTRICS_URL_ENCRYPTION_KEY must be at least 16 characters".toList
    else
      .ok { base_url := rstripSlash base_url
            api_token := api_token
            survey_id := survey_id
            title_column := title_column
            body_column := body_column
            response_id_column :=
              env_optional env "QUALTRICS_RESPONSE_ID_COLUMN".toList "ResponseId".toList
            published_column :=
              if env_optional env "QUALTRICS_PUBLISHED_COLUMN".toList "Finished".toList = [] then
                "Finished".toList
              else env_optional env "QUALTRICS_PUBLISHED_COLUMN".toList "Finished".toList
            published_value :=
              if env_optional env "QUALTRICS_PUBLISHED_VALUE".toList ('1' :: []) = [] then
                ('1' : Char) :: []
              else env_optional env "QUALTRICS_PUBLISHED_VALUE".toList ('1' :: [])
            recorded_date_column :=
              env_optional env "QUALTRICS_RECORDED_DATE_COLUMN".toList "RecordedDate".toList
            url_encryption_key := url_encryption_key }
  | .error e, _, _, _, _, _ => .error e
  | _, .error e, _, _, _, _ => .error e
  | _, _, .error e, _, _, _ => .error e
  | _, _, _, .error e, _, _ => .error e
  | _, _, _, _, .error e, _ => .error e
  | _, _, _, _, _, .error e => .error e

/-! ### The reconciler (`sync_rows`) -/

/-- The loop state of `sync_rows`: the `existing_by_response` map, the three
counters, and the petitions directory (the script mutates the real file
system; the model threads it through the state). -/
structure SyncState where
  index : Idx
  created : Nat
  updated : Nat
  skipped : Nat
  fs : FSt
deriving DecidableEq, Repr

/-- `render_markdown` applied to one row's fields. -/
def renderRow (row : PetitionRow) : Str :=
  render_markdown row.title row.body row.response_id row.recorded_date

/-- `current = existing_by_response.get(response_id)`. -/
def stepCurrent (st : SyncState) (row : PetitionRow) : Option Str :=
  getIdx st.index row.response_id

/-- `target = choose_petition_path(response_id, key, current)`. -/
def stepTarget (tok : Str → Str → Str) (cfg : QualtricsConfig)
    (st : SyncState) (row : PetitionRow) : Str :=
  choose_petition_path tok row.response_id cfg.url_encryption_key (stepCurrent st row) st.fs

/-- `moved = current is not None and current.resolve() != target.resolve()`. -/
def stepMoved (tok : Str → Str → Str) (cfg : QualtricsConfig)
    (st : SyncState) (row : PetitionRow) : Bool :=
  match stepCurrent st row with
  | none => false
  | some c => if c = stepTarget tok cfg st row then false else true

/-- The directory after `if moved and not dry_run: current.rename(target)`. -/
def stepFs1 (tok : Str → Str → Str) (cfg : QualtricsConfig) (dry_run : Bool)
    (st : SyncState) (row : PetitionRow) : FSt :=
  if stepMoved tok cfg st row = true ∧ dry_run = false then
    renameFS st.fs ((stepCurrent st row).getD []) (stepTarget tok cfg st row)
  else st.fs

/-- `baseline = current if moved and dry_run and current is not None else target`. -/
def stepBaseline (tok : Str → Str → Str) (cfg : QualtricsConfig) (dry_run : Bool)
    (st : SyncState) (row : PetitionRow) : Str :=
  if stepMoved tok cfg st row = true ∧ dry_run = true then
    (stepCurrent st row).getD (stepTarget tok cfg st row)
  else stepTarget tok cfg st row

/-- `already = baseline.read_text() if baseline.exists() else None`. -/
def stepAlready (tok : Str → Str → Str) (cfg : QualtricsConfig) (dry_run : Bool)
    (st : SyncState) (row : PetitionRow) : Option Str :=
  lookupFS (stepFs1 tok cfg dry_run st row) (stepBaseline tok cfg dry_run st row)

/-- One iteration of the `for row in rows` loop of `sync_rows`; the Python
locals `current`, `target`, `moved`, `markdown`, `baseline`, `already` are the
`step*` definitions above (and `markdown` is `renderRow row`). -/
def syncStep (tok : Str → Str → Str) (cfg : QualtricsConfig) (dry_run : Bool)
    (st : SyncState) (row : PetitionRow) : SyncState :=
  if row.is_published = false then
    { st with skipped := st.skipped + 1 }
  else if row.response_id = [] ∨ row.title = [] ∨ row.body = [] then
    { st with skipped := st.skipped + 1 }
  else if stepAlready tok cfg dry_run st row = some (renderRow row) ∧
      stepMoved tok cfg st row = false then
    { st with
      skipped := st.skipped + 1
      index := (row.response_id, stepTarget tok cfg st row) :: st.index
      fs := stepFs1 tok cfg dry_run st row }
  else
    { st with
      created := if stepCurrent st row = none then st.created + 1 else st.created
      updated := if stepCurrent st row = none then st.updated else st.updated + 1
      index := (row.response_id, stepTarget tok cfg st row) :: st.index
      fs :=
        if dry_run = false ∧ ¬stepAlready tok cfg dry_run st row = some (renderRow row) then
          writeFS (stepFs1 tok cfg dry_run st row) (stepTarget tok cfg st row) (renderRow row)
        else stepFs1 tok cfg dry_run st row }

/-- `sync_rows`.  The script returns `(created, updated, skipped)`; the model
returns the whole final state so the theorems can also speak about the
resulting directory. -/
def sync_rows (tok : Str → Str → Str) (rows : List PetitionRow)
    (cfg : QualtricsConfig) (dry_run : Bool) (fs0 : FSt) : SyncState :=
  rows.foldl (syncStep tok cfg dry_run)
    { index := scan_existing_petitions fs0
      created := 0
      updated := 0
      skipped := 0
      fs := fs0 }

/-! ### Derived notions used by the specification statements -/

/-- A row that passes both skip gates of `sync_rows` (published and with
non-empty id, title and body); only such rows touch the directory. -/
def eligibleRow (row : PetitionRow) : Bool :=
  row.is_published && !row.response_id.isEmpty && !row.title.isEmpty && !row.body.isEmpty

/-- The row's rendered document carries the row's own externalId: rendering
followed by front-matter parsing round-trips on the id.  This holds for all
realistic fields (no newlines inside fields, id not starting or ending with a
quote character) and is decidable, so concrete instances go through `decide`. -/
def RowRoundTrip (row : PetitionRow) : Prop :=
  parseId (renderRow row) = some row.response_id

/-- Document `p` of the directory `fs` holds externalId `R`: it is an `.md`
file whose front matter parses to the non-empty id `R` (this is exactly what
`scan_existing_petitions` indexes). -/
def Holds (fs : FSt) (p R : Str) : Prop :=
  ¬R = [] ∧ ".md".toList.isSuffixOf p = true ∧ (lookupFS fs p).bind parseId = some R

/-- The central invariant: at most one document per externalId. -/
def UniqueIds (fs : FSt) : Prop :=
  ∀ p q R, Holds fs p R → Holds fs q R → p = q

/-- Well-formed directory: file names are distinct (true of any real file
system; the association-list model makes it explicit). -/
def FSWF (fs : FSt) : Prop :=
  (fs.map Prod.fst).Nodup

/-- The base name `petition-<token>` of `choose_petition_path`. -/
def canonBase (tok : Str → Str → Str) (response_id key : Str) : Str :=
  "petition-".toList ++ tok response_id key

/-- The canonical (collision-free) file name for an externalId. -/
def canonPath (tok : Str → Str → Str) (response_id key : Str) : Str :=
  canonBase tok response_id key ++ ".md".toList

/-- Decimal value of a digit string; inverse of `toDec`, used to prove that
distinct counters yield distinct candidate file names. -/
def decVal (s : Str) : Nat :=
  s.foldl (fun a c => 10 * a + (c.toNat - 48)) 0

/-- The directory produced by a real run on an empty directory: one file per
eligible row, at its canonical name, holding its rendered content. -/
def fsOfRows (tok : Str → Str → Str) (key : Str) (rows : List PetitionRow) : FSt :=
  rows.map fun r => (canonPath tok r.response_id key, renderRow r)

/-- The `existing_by_response` map after those same creations (updates prepend,
so the map is the reversed list of bindings). -/
def idxOfRows (tok : Str → Str → Str) (key : Str) (rows : List PetitionRow) : Idx :=
  (rows.map fun r => (r.response_id, canonPath tok r.response_id key)).reverse

/-! ### Concrete fixtures for witnesses and counterexamples -/

/-- A concrete stand-in for `encrypted_response_token` (the theorems hold for
every token function; the fixtures use the identity on the response id). -/
def tok0 : Str → Str → Str := fun response_id _ => response_id

def cfg0 : QualtricsConfig :=
  { base_url := "https://example.qualtrics.com".toList
    api_token := "tkn".toList
    survey_id := "SV_1".toList
    title_column := "T".toList
    body_column := "B".toList
    response_id_column := "R".toList
    published_column := "P".toList
    published_value := ('1' : Char) :: []
    recorded_date_column := "D".toList
    url_encryption_key := "0123456789abcdef".toList }

/-- The spec's own scenario row. -/
def rowPothole : PetitionRow :=
  { title := "Fix Potholes".toList
    body := "Please fix.".toList
    response_id := "R_1".toList
    recorded_date := "2024-01-01".toList
    is_published := true }

def rowSecond : PetitionRow :=
  { rowPothole with response_id := "R_2".toList, title := "More Lights".toList }

/-- A row whose response id starts and ends with a double quote: the rendered
front matter `qualtrics_response_id: ""a""` strips back to `a`, not `"a"`. -/
def rowQuotedId : PetitionRow :=
  { rowPothole with response_id := '"' :: 'a' :: '"' :: [] }

/-- A row whose response id is `"a` (leading double quote). -/
def rowBareQuoteId : PetitionRow :=
  { rowPothole with response_id := '"' :: 'a' :: [] }

/-- A hand-written document whose front matter value `'"a'` parses to the id
`"a` (strip whitespace, then `"`, then `'`). -/
def docBareQuoteA : Str :=
  ("---\nlayout: petition\ntitle: \"t\"\nqualtrics_response_id: '\"a'\n" ++
    "qualtrics_recorded_date: \"d\"\nsource: qualtrics\n---\n\nbody\n").toList

/-- A document created by the tool for the plain id `a`. -/
def docPlainA : Str :=
  render_markdown "t".toList "b".toList ('a' :: []) "d".toList

/-- A concrete CSV header row matching `cfg0`. -/
def hdrC : List Str :=
  ["T".toList, "B".toList, "R".toList, "P".toList, "D".toList]

/-- A concrete data row whose published cell is `yes` (a boolean token, but not
the string `1`). -/
def valsC : List Str :=
  ["t1".toList, "b1".toList, "r1".toList, "yes".toList, "d1".toList]

/-- An environment on which `load_config` succeeds. -/
def envC : Env :=
  [("QUALTRICS_BASE_URL".toList, "https://example.qualtrics.com/".toList),
   ("QUALTRICS_API_TOKEN".toList, "tkn".toList),
   ("QUALTRICS_SURVEY_ID".toList, "SV_1".toList),
   ("QUALTRICS_TITLE_COLUMN".toList, "T".toList),
   ("QUALTRICS_BODY_COLUMN".toList, "B".toList),
   ("QUALTRICS_URL_ENCRYPTION_KEY".toList, "0123456789abcdef".toList)]

/-- The `PetitionRow` extracted from `valsC` under `cfg0`. -/
def rowYes : PetitionRow :=
  { title := "t1".toList
    body := "b1".toList
    response_id := "r1".toList
    recorded_date := "d1".toList
    is_published := true }

/-- The configuration `load_config` produces from `envC`. -/
def cfgLC : QualtricsConfig :=
  match load_config envC with
  | .ok cfg => cfg
  | .error _ => cfg0

deriving instance DecidableEq for Except

/-- The run-time index is faithful to the directory: every binding points at a
document holding that id, and every held id is bound. -/
def IdxFaithful (fs : FSt) (idx : Idx) : Prop :=
  (∀ R p, getIdx idx R = some p → Holds fs p R) ∧
  (∀ p R, Holds fs p R → ¬getIdx idx R = none)

/-- Invariant carried through the real-run reconciliation loop. -/
def GoodState (st : SyncState) : Prop :=
  FSWF st.fs ∧ IdxFaithful st.fs st.index

/-- Hypothesis on a row: if it is eligible, its rendered document carries its
own id (see `RowRoundTrip`). -/
def RowSafe (row : PetitionRow) : Prop :=
  eligibleRow row = true → RowRoundTrip row

instance rowRoundTripDecidable (row : PetitionRow) : Decidable (RowRoundTrip row) :=
  inferInstanceAs (Decidable (_ = _))

instance rowSafeDecidable (row : PetitionRow) : Decidable (RowSafe row) :=
  inferInstanceAs (Decidable (_ → _))

instance holdsDecidable (fs : FSt) (p R : Str) : Decidable (Holds fs p R) :=
  inferInstanceAs (Decidable (_ ∧ _ ∧ _))

instance fswfDecidable (fs : FSt) : Decidable (FSWF fs) :=
  inferInstanceAs (Decidable (List.Nodup _))

/-! ## Theorems -/

theorem lookupFS_mem {fs : FSt} {p c : Str} (h : lookupFS fs p = some c) : (p, c) ∈ fs := by
  induction fs with
  | nil => simp [lookupFS] at h
  | cons e rest ih =>
    simp only [lookupFS] at h
    split at h
    · rename_i he
      cases h
      exact List.mem_cons.mpr (Or.inl (by cases e; simp_all))
    · exact List.mem_cons_of_mem _ (ih h)

theorem lookupFS_mem_keys {fs : FSt} {p c : Str} (h : lookupFS fs p = some c) :
    p ∈ fs.map Prod.fst :=
  List.mem_map.mpr ⟨(p, c), lookupFS_mem h, rfl⟩

theorem lookupFS_none_of_not_mem {fs : FSt} {p : Str} (h : ¬p ∈ fs.map Prod.fst) :
    lookupFS fs p = none := by
  induction fs with
  | nil => rfl
  | cons e rest ih =>
    simp only [List.map_cons, List.mem_cons] at h
    push_neg at h
    simp only [lookupFS]
    rw [if_neg (fun he => h.1 he.symm), ih h.2]

theorem mem_of_lookupFS_isSome {fs : FSt} {p : Str} (h : ¬lookupFS fs p = none) :
    p ∈ fs.map Prod.fst := by
  cases hc : lookupFS fs p with
  | none => exact absurd hc h
  | some c => exact lookupFS_mem_keys hc

theorem lookupFS_of_mem {fs : FSt} {p c : Str} (hwf : FSWF fs) (h : (p, c) ∈ fs) :
    lookupFS fs p = some c := by
  induction fs with
  | nil => simp at h
  | cons e rest ih =>
    rcases List.mem_cons.mp h with he | hm
    · subst he
      simp [lookupFS]
    · have hkey : p ∈ rest.map Prod.fst := List.mem_map.mpr ⟨(p, c), hm, rfl⟩
      have h1 := (List.nodup_cons.mp hwf).1
      have hne : ¬e.1 = p := fun hep => h1 (by rw [hep]; exact hkey)
      simp only [lookupFS]
      rw [if_neg hne]
      exact ih (List.nodup_cons.mp hwf).2 hm

theorem lookupFS_append (a b : FSt) (q : Str) :
    lookupFS (a ++ b) q =
      match lookupFS a q with
      | some c => some c
      | none => lookupFS b q := by
  induction a with
  | nil => simp [lookupFS]
  | cons e rest ih =>
    simp only [List.cons_append, lookupFS]
    split <;> simp [ih]

theorem lookupFS_writeFS (fs : FSt) (p c q : Str) :
    lookupFS (writeFS fs p c) q = if p = q then some c else lookupFS fs q := by
  induction fs with
  | nil => simp [writeFS, lookupFS]
  | cons e rest ih =>
    simp only [writeFS]
    split
    · rename_i hep
      subst hep
      simp only [lookupFS]
      split <;> simp_all
    · rename_i hep
      simp only [lookupFS, ih]
      by_cases hq : e.1 = q
      · subst hq
        simp [if_neg (fun hpq : p = e.1 => hep hpq.symm)]
      · simp [hq]

theorem mem_keys_writeFS {fs : FSt} {p c q : Str}
    (h : q ∈ (writeFS fs p c).map Prod.fst) : q ∈ fs.map Prod.fst ∨ q = p := by
  induction fs with
  | nil =>
    simp [writeFS] at h
    exact Or.inr h
  | cons e rest ih =>
    simp only [writeFS] at h
    split at h
    · rename_i hep
      simp only [List.map_cons, List.mem_cons] at h
      rcases h with h1 | h2
      · exact Or.inr h1
      · exact Or.inl (by simp only [List.map_cons, List.mem_cons]; exact Or.inr h2)
    · simp only [List.map_cons, List.mem_cons] at h
      rcases h with h1 | h2
      · exact Or.inl (by simp only [List.map_cons, List.mem_cons]; exact Or.inl h1)
      · rcases ih h2 with h3 | h3
        · exact Or.inl (by simp only [List.map_cons, List.mem_cons]; exact Or.inr h3)
        · exact Or.inr h3

theorem FSWF_writeFS {fs : FSt} (p c : Str) (hwf : FSWF fs) : FSWF (writeFS fs p c) := by
  induction fs with
  | nil => simp [writeFS, FSWF]
  | cons e rest ih =>
    have h1 := (List.nodup_cons.mp hwf).1
    have h2 := (List.nodup_cons.mp hwf).2
    simp only [writeFS]
    split
    · rename_i hep
      subst hep
      exact List.nodup_cons.mpr ⟨h1, h2⟩
    · rename_i hep
      refine List.nodup_cons.mpr ⟨?_, ih h2⟩
      intro hmem
      rcases mem_keys_writeFS (by simpa using hmem) with h3 | h3
      · exact h1 h3
      · exact hep h3

theorem lookupFS_filter_ne {fs : FSt} {src dst q : Str} (h1 : ¬q = src) (h2 : ¬q = dst) :
    lookupFS (fs.filter fun e => ¬(e.1 = src ∨ e.1 = dst)) q = lookupFS fs q := by
  induction fs with
  | nil => rfl
  | cons e rest ih =>
    simp only [List.filter_cons]
    by_cases hk : e.1 = src ∨ e.1 = dst
    · have : ¬e.1 = q := by
        rcases hk with hk | hk
        · exact fun h => h1 (h ▸ hk ▸ rfl)
        · exact fun h => h2 (h ▸ hk ▸ rfl)
      simp only [decide_eq_true_eq, hk]
      simp only [lookupFS, if_neg this, ite_false]
      simpa using ih
    · simp only [decide_eq_true_eq, hk]
      simp only [lookupFS, ite_true]
      split
      · rfl
      · exact ih

theorem lookupFS_filter_self {fs : FSt} {src dst q : Str} (h : q = src ∨ q = dst) :
    lookupFS (fs.filter fun e => ¬(e.1 = src ∨ e.1 = dst)) q = none := by
  induction fs with
  | nil => rfl
  | cons e rest ih =>
    simp only [List.filter_cons]
    by_cases hk : e.1 = src ∨ e.1 = dst
    · simpa [hk] using ih
    · have : ¬e.1 = q := by
        intro hq
        rcases h with h | h <;> exact hk (by rw [hq, h]; simp [h])
      simp only [decide_eq_true_eq, hk]
      simp only [lookupFS, if_neg this, ite_true]
      exact ih

theorem lookupFS_renameFS {fs : FSt} {src : Str} (dst : Str) {c0 : Str}
    (h : lookupFS fs src = some c0) (q : Str) :
    lookupFS (renameFS fs src dst) q =
      if q = dst then some c0 else if q = src then none else lookupFS fs q := by
  simp only [renameFS, h]
  rw [lookupFS_append]
  by_cases hd : q = dst
  · subst hd
    rw [lookupFS_filter_self (Or.inr rfl)]
    simp [lookupFS]
  · by_cases hs : q = src
    · subst hs
      rw [lookupFS_filter_self (Or.inl rfl)]
      simp [lookupFS, hd, if_neg (fun h' : dst = q => hd h'.symm)]
    · rw [lookupFS_filter_ne hs hd]
      cases hlq : lookupFS fs q with
      | none => simp [lookupFS, hd, if_neg (fun h' : dst = q => hd h'.symm), hs]
      | some c => simp [hd, hs]

theorem FSWF_renameFS {fs : FSt} (src dst : Str) (hwf : FSWF fs) :
    FSWF (renameFS fs src dst) := by
  unfold renameFS
  cases hl : lookupFS fs src with
  | none => exact hwf
  | some c0 =>
    unfold FSWF
    rw [List.map_append]
    rw [List.nodup_append]
    refine ⟨?_, by simp, ?_⟩
    · exact ((List.filter_sublist fs).map Prod.fst).nodup hwf
    · intro x hx
      simp only [List.map_cons, List.map_nil, List.mem_singleton]
      intro hxd
      subst hxd
      rcases List.mem_map.mp hx with ⟨e, he, hfst⟩
      have := List.of_mem_filter he
      simp only [decide_eq_true_eq] at this
      exact this (Or.inr hfst)

/-! ### The probing loop of `choose_petition_path` -/

theorem digitChar_toNat : ∀ d, d < 10 → (digitChar d).toNat = 48 + d := by decide

theorem decVal_append_digit (s : Str) (c : Char) :
    decVal (s ++ [c]) = 10 * decVal s + (c.toNat - 48) := by
  simp [decVal, List.foldl_append]

theorem decVal_toDec (n : Nat) : decVal (toDec n) = n := by
  induction n using Nat.strong_induction_on with
  | _ n ih =>
    rw [toDec]
    split
    · rename_i h
      have := digitChar_toNat n h
      simp only [decVal, List.foldl_cons, List.foldl_nil]
      omega
    · rename_i h
      rw [decVal_append_digit, ih (n / 10) (Nat.div_lt_self (by omega) (by omega))]
      have := digitChar_toNat (n % 10) (Nat.mod_lt _ (by omega))
      omega

theorem toDec_inj {m n : Nat} (h : toDec m = toDec n) : m = n := by
  have hm := decVal_toDec m
  rw [h, decVal_toDec] at hm
  omega

theorem candidateName_inj {base : Str} {j k : Nat} (hj : 1 ≤ j) (hk : 1 ≤ k)
    (h : candidateName base j = candidateName base k) : j = k := by
  unfold candidateName at h
  by_cases h1 : j ≤ 1 <;> by_cases h2 : k ≤ 1
  · omega
  · rw [if_pos h1, if_neg h2] at h
    simp only [List.append_assoc] at h
    have := List.append_cancel_left h
    simp at this
  · rw [if_neg h1, if_pos h2] at h
    simp only [List.append_assoc] at h
    have := List.append_cancel_left h
    simp at this
  · rw [if_neg h1, if_neg h2] at h
    simp only [List.append_assoc] at h
    have h3 := List.append_cancel_left h
    simp only [List.singleton_append, List.cons.injEq, true_and] at h3
    exact toDec_inj (List.append_cancel_right h3)

theorem candidateName_suffix (base : Str) (k : Nat) :
    ".md".toList.isSuffixOf (candidateName base k) = true := by
  rw [List.isSuffixOf_iff_suffix]
  unfold candidateName
  split
  · exact List.suffix_append _ _
  · exact ⟨base ++ ['-'] ++ toDec k, by simp⟩

theorem probeAux_shape (fs : FSt) (cur : Option Str) (base : Str) :
    ∀ fuel k, ∃ m, k ≤ m ∧ probeAux fs cur base fuel k = candidateName base m := by
  intro fuel
  induction fuel with
  | zero => exact fun k => ⟨k, le_refl _, rfl⟩
  | succ f ih =>
    intro k
    simp only [probeAux]
    split
    · obtain ⟨m, hm, he⟩ := ih (k + 1)
      exact ⟨m, by omega, he⟩
    · exact ⟨k, le_refl _, rfl⟩

theorem exists_free_candidate (fs : FSt) (base : Str) (k : Nat) (hk : 1 ≤ k) :
    ∃ i, i ≤ fs.length ∧ lookupFS fs (candidateName base (k + i)) = none := by
  by_contra hcon
  push_neg at hcon
  have hinj : Function.Injective fun i => candidateName base (k + i) := by
    intro a b hab
    have : a + k = b + k := by
      have hab2 : candidateName base (k + a) = candidateName base (k + b) := hab
      have := candidateName_inj (by omega) (by omega) hab2
      omega
    omega
  set l := (List.range (fs.length + 1)).map fun i => candidateName base (k + i) with hl
  have hnd : l.Nodup := (List.nodup_range _).map hinj
  have hsub : ∀ x ∈ l, x ∈ fs.map Prod.fst := by
    intro x hx
    rcases List.mem_map.mp hx with ⟨i, hi, hix⟩
    have hile : i ≤ fs.length := by
      have := List.mem_range.mp hi
      omega
    subst hix
    exact mem_of_lookupFS_isSome (hcon i hile)
  have hcard1 : l.toFinset.card = fs.length + 1 := by
    rw [List.toFinset_card_of_nodup hnd]
    simp [hl]
  have hcard2 : l.toFinset.card ≤ (fs.map Prod.fst).toFinset.card := by
    apply Finset.card_le_card
    intro x hx
    exact List.mem_toFinset.mpr (hsub x (List.mem_toFinset.mp hx))
  have hcard3 : (fs.map Prod.fst).toFinset.card ≤ fs.length := by
    have := List.toFinset_card_le (l := fs.map Prod.fst)
    simpa using this
  omega

theorem probeAux_free_or_current (fs : FSt) (cur : Option Str) (base : Str) :
    ∀ fuel k, (∃ i, i < fuel ∧ lookupFS fs (candidateName base (k + i)) = none) →
      lookupFS fs (probeAux fs cur base fuel k) = none ∨
        cur = some (probeAux fs cur base fuel k) := by
  intro fuel
  induction fuel with
  | zero =>
    intro k h
    obtain ⟨i, hi, _⟩ := h
    omega
  | succ f ih =>
    intro k h
    simp only [probeAux]
    split
    · rename_i hcond
      apply ih (k + 1)
      obtain ⟨i, hi, hfree⟩ := h
      have hi0 : ¬i = 0 := by
        intro h0
        subst h0
        rw [Nat.add_zero] at hfree
        have := hcond.1
        rw [existsFS, hfree] at this
        simp at this
      refine ⟨i - 1, by omega, ?_⟩
      have hik : k + 1 + (i - 1) = k + i := by omega
      rw [hik]
      exact hfree
    · rename_i hcond
      by_cases hex : existsFS fs (candidateName base k) = true
      · right
        by_contra hne
        exact hcond ⟨hex, hne⟩
      · left
        simp only [existsFS, Option.isSome_iff_ne_none] at hex
        push_neg at hex
        exact hex

/-- C9: `choose_petition_path` always returns a path (the probing loop
terminates within `fs.length + 1` steps, since distinct counters give distinct
candidate names), and the returned path is either free or the caller's own
current path; resolution can never fail. -/
theorem choose_petition_path_total (tok : Str → Str → Str) (response_id key : Str)
    (current : Option Str) (fs : FSt) :
    (lookupFS fs (choose_petition_path tok response_id key current fs) = none ∨
      current = some (choose_petition_path tok response_id key current fs)) ∧
    ∃ m, 1 ≤ m ∧ choose_petition_path tok response_id key current fs =
      candidateName (canonBase tok response_id key) m := by
  constructor
  · apply probeAux_free_or_current
    obtain ⟨i, hi, hfree⟩ := exists_free_candidate fs (canonBase tok response_id key) 1 (le_refl 1)
    exact ⟨i, by omega, hfree⟩
  · exact probeAux_shape fs current (canonBase tok response_id key) (fs.length + 1) 1

theorem candidateName_one (base : Str) : candidateName base 1 = base ++ ".md".toList := by
  simp [candidateName]

/-- C4 (counterexample): the resolver does *not* always return an existing
known path unchanged.  With a document for `R_1` living at `petition-old.md`
and the canonical name `petition-R_1.md` free, `choose_petition_path` returns
the canonical name, i.e. it relocates the document even though the naming
input did not change between calls. -/
theorem choose_petition_path_moves_known_path :
    existsFS [("petition-old.md".toList, docPlainA)] "petition-old.md".toList = true ∧
    ¬choose_petition_path tok0 "R_1".toList cfg0.url_encryption_key
        (some "petition-old.md".toList) [("petition-old.md".toList, docPlainA)] =
      "petition-old.md".toList := by
  constructor
  · decide
  · decide

/-- C4 (amended): the resolver is stable on canonical paths — when the
externalId's known current path is its canonical token-derived name
`petition-<token>.md` and that file exists, `choose_petition_path` returns it
unchanged.  (Documents created by the tool at their canonical name therefore
never churn; a known path that differs from the canonical name may be
relocated, as the counterexample shows.) -/
theorem choose_petition_path_stable_on_canonical (tok : Str → Str → Str)
    (response_id key p : Str) (fs : FSt)
    (hp : p = canonPath tok response_id key) (hex : existsFS fs p = true) :
    choose_petition_path tok response_id key (some p) fs = p := by
  subst hp
  show probeAux fs (some (canonPath tok response_id key))
      ("petition-".toList ++ tok response_id key) (fs.length + 1) 1 =
    canonPath tok response_id key
  simp only [probeAux]
  rw [if_neg]
  · rw [candidateName_one]
    rfl
  · intro hcontra
    apply hcontra.2
    rw [candidateName_one]
    rfl

theorem choose_petition_path_stable_on_canonical_witness :
    ("petition-R_1.md".toList = canonPath tok0 "R_1".toList cfg0.url_encryption_key ∧
      existsFS [("petition-R_1.md".toList, docPlainA)] "petition-R_1.md".toList = true) ∧
    choose_petition_path tok0 "R_1".toList cfg0.url_encryption_key
        (some "petition-R_1.md".toList) [("petition-R_1.md".toList, docPlainA)] =
      "petition-R_1.md".toList := by
  refine ⟨⟨by decide, by decide⟩, ?_⟩
  exact choose_petition_path_stable_on_canonical tok0 "R_1".toList cfg0.url_encryption_key
    "petition-R_1.md".toList [("petition-R_1.md".toList, docPlainA)] (by decide) (by decide)

/-! ### Row extraction (`rows_from_zip`) -/

theorem getHIdx_fold_none_iff (l : List (Nat × Str)) (c : Str) :
    ∀ acc, getHIdx (l.foldl (fun m hi => (trimS hi.2, hi.1) :: m) acc) c = none ↔
      ((∀ hi ∈ l, ¬trimS hi.2 = c) ∧ getHIdx acc c = none) := by
  induction l with
  | nil => simp [List.foldl]
  | cons hi rest ih =>
    intro acc
    simp only [List.foldl_cons]
    rw [ih]
    constructor
    · rintro ⟨h1, h2⟩
      simp only [getHIdx] at h2
      split at h2
      · exact absurd h2 (by simp)
      · rename_i hne
        exact ⟨by
          intro x hx
          rcases List.mem_cons.mp hx with hx | hx
          · subst hx; exact hne
          · exact h1 x hx, h2⟩
    · rintro ⟨h1, h2⟩
      refine ⟨fun x hx => h1 x (List.mem_cons_of_mem _ hx), ?_⟩
      simp only [getHIdx]
      rw [if_neg (h1 hi (List.mem_cons_self _ _))]
      exact h2

theorem getHIdx_headerIndex_none_iff (hs : List Str) (c : Str) :
    getHIdx (headerIndex hs) c = none ↔ ∀ h ∈ hs, ¬trimS h = c := by
  unfold headerIndex
  rw [getHIdx_fold_none_iff]
  constructor
  · intro h x hx
    have : ∃ i, (i, x) ∈ hs.enum := by
      have := List.enum_map_snd hs
      rcases List.mem_map.mp (by rw [this]; exact hx : x ∈ (hs.enum).map Prod.snd) with ⟨hi, hmem, hsnd⟩
      exact ⟨hi.1, by cases hi; simpa [← hsnd] using hmem⟩
    obtain ⟨i, hi⟩ := this
    exact h.1 (i, x) hi
  · intro h
    refine ⟨?_, rfl⟩
    intro hi hmem
    apply h
    have := List.enum_map_snd hs
    rw [← this]
    exact List.mem_map.mpr ⟨hi, hmem, rfl⟩

theorem mem_insertSortedUnique {x y : Str} {l : List Str} :
    x ∈ insertSortedUnique y l ↔ x = y ∨ x ∈ l := by
  induction l with
  | nil => simp [insertSortedUnique]
  | cons z rest ih =>
    simp only [insertSortedUnique]
    split
    · rename_i hyz
      subst hyz
      constructor
      · intro h; right; exact h
      · rintro (h | h)
        · subst h; exact List.mem_cons_self _ _
        · exact h
    · split
      · rw [List.mem_cons, List.mem_cons]
      · rw [List.mem_cons, ih, List.mem_cons]
        tauto

theorem mem_sortedDedup {x : Str} {l : List Str} : x ∈ sortedDedup l ↔ x ∈ l := by
  unfold sortedDedup
  suffices h : ∀ acc, x ∈ l.foldl (fun acc x => insertSortedUnique x acc) acc ↔ x ∈ acc ∨ x ∈ l by
    rw [h]; simp
  induction l with
  | nil => simp
  | cons z rest ih =>
    intro acc
    simp only [List.foldl_cons]
    rw [ih]
    rw [mem_insertSortedUnique]
    simp [List.mem_cons]
    tauto

/-- C5: when the trimmed CSV header lacks one of the configured required
columns (title, body, id, published, and the recorded-date column when
configured), `rows_from_zip` fails before producing any row, with an error
listing *every* missing required column. -/
theorem rows_from_zip_reports_all_missing_columns (cfg : QualtricsConfig)
    (hs : List Str) (dataRows : List (List Str)) (c : Str)
    (hc : c ∈ requiredColumns cfg) (hcne : ¬c = [])
    (habs : ∀ h ∈ hs, ¬trimS h = c) :
    ∃ miss, rows_from_zip (some hs) dataRows cfg = .error miss ∧ c ∈ miss ∧
      ∀ c', c' ∈ requiredColumns cfg → ¬c' = [] → (∀ h ∈ hs, ¬trimS h = c') →
        c' ∈ miss := by
  have hmem : ∀ c', c' ∈ requiredColumns cfg → ¬c' = [] → (∀ h ∈ hs, ¬trimS h = c') →
      c' ∈ sortedDedup ((requiredColumns cfg).filter
        fun name => ¬name = [] ∧ getHIdx (headerIndex hs) name = none) := by
    intro c' h1 h2 h3
    rw [mem_sortedDedup]
    rw [List.mem_filter]
    refine ⟨h1, ?_⟩
    simp only [decide_eq_true_eq]
    exact ⟨h2, (getHIdx_headerIndex_none_iff hs c').mpr h3⟩
  have hcmem := hmem c hc hcne habs
  refine ⟨_, ?_, hcmem, hmem⟩
  simp only [rows_from_zip]
  rw [if_neg (List.ne_nil_of_mem hcmem)]

theorem dropWhile_idem (w : Char → Bool) (s : Str) :
    (s.dropWhile w).dropWhile w = s.dropWhile w := by
  induction s with
  | nil => rfl
  | cons c rest ih =>
    by_cases h : w c = true
    · simp [List.dropWhile_cons, h, ih]
    · simp [List.dropWhile_cons, h]

theorem dropWhile_head_false {w : Char → Bool} {s : Str} (h : s.dropWhile w = s) :
    ∀ c rest, s = c :: rest → w c = false := by
  intro c rest hs
  subst hs
  rw [List.dropWhile_cons] at h
  by_cases hc : w c = true
  · rw [if_pos hc] at h
    have := (List.dropWhile_suffix (l := rest) w).sublist.length_le
    rw [h] at this
    simp at this
  · simpa using hc

theorem trimS_idem (s : Str) : trimS (trimS s) = trimS s := by
  unfold trimS
  set A := s.dropWhile isPyWS with hA
  have hAdrop : A.dropWhile isPyWS = A := by rw [hA]; exact dropWhile_idem _ _
  set B := (A.reverse.dropWhile isPyWS).reverse with hB
  have hBrev : B.reverse = A.reverse.dropWhile isPyWS := by rw [hB, List.reverse_reverse]
  have hBpre : B <+: A := by
    rw [← List.reverse_suffix, hBrev]
    exact List.dropWhile_suffix _
  have hBdrop : B.dropWhile isPyWS = B := by
    cases hBc : B with
    | nil => rfl
    | cons b B' =>
      obtain ⟨t, ht⟩ := hBpre
      rw [hBc] at ht
      have hwb : isPyWS b = false := by
        apply dropWhile_head_false hAdrop b (B' ++ t)
        rw [← ht]
        simp
      rw [List.dropWhile_cons, hwb]
      simp
  rw [hBdrop, hBrev, dropWhile_idem, ← hBrev, List.reverse_reverse]

theorem parse_bool_token_trimS (v : Str) :
    parse_bool_token (trimS v) = parse_bool_token v := by
  simp only [parse_bool_token, trimS_idem]

theorem published_matches_iff (v e : Str) :
    published_matches v e = true ↔
      (trimS v = trimS e ∨
        ∃ b, parse_bool_token v = some b ∧ parse_bool_token e = some b) := by
  simp only [published_matches]
  by_cases h : trimS v = trimS e
  · simp [h]
  · rw [if_neg h]
    rw [parse_bool_token_trimS, parse_bool_token_trimS]
    cases hv : parse_bool_token v <;> cases he : parse_bool_token e <;> simp [h, eq_comm]

/-- C6 (counterexample): eligibility is *not* plain equality between the
published-column cell and the configured expected value.  On a concrete CSV
whose published cell is `yes` with expected value `1`, the extracted row is
eligible although the cell (even after trimming) differs from the expected
value. -/
theorem eligibility_not_plain_equality :
    rows_from_zip (some hdrC) [valsC] cfg0 = .ok [rowYes] ∧
    rowYes.is_published = true ∧
    ¬cellLookup (headerIndex hdrC) valsC cfg0.published_column = cfg0.published_value ∧
    ¬trimS (cellLookup (headerIndex hdrC) valsC cfg0.published_column) =
      trimS cfg0.published_value := by
  refine ⟨by decide, by decide, by decide, by decide⟩

/-- C6 (amended): a row's eligibility flag is `published_matches` of the
published-column cell against the configured expected value, where
`published_matches` holds iff the trimmed strings are equal *or* both parse as
boolean tokens (`1/true/t/yes/y` vs `0/false/f/no/n`, case-insensitively) with
the same truth value; and `load_config` never yields an empty published column
(it defaults to `Finished`), so the spec's "no published column configured"
case cannot arise from configuration loading. -/
theorem eligibility_rule :
    (∀ (cfg : QualtricsConfig) (hidx : List (Str × Nat)) (vals : List Str),
      (mkPetitionRow cfg hidx vals).is_published =
        published_matches (cellLookup hidx vals cfg.published_column)
          cfg.published_value) ∧
    (∀ v e : Str, published_matches v e = true ↔
      (trimS v = trimS e ∨
        ∃ b, parse_bool_token v = some b ∧ parse_bool_token e = some b)) ∧
    (∀ (env : Env) (cfg : QualtricsConfig), load_config env = .ok cfg →
      ¬cfg.published_column = []) := by
  refine ⟨fun cfg hidx vals => rfl, published_matches_iff, ?_⟩
  intro env cfg hok
  unfold load_config at hok
  split at hok
  · split at hok
    · exact absurd hok (by simp)
    · split at hok
      · exact absurd hok (by simp)
      · cases hok
        simp only []
        split
        · simp
        · rename_i hne
          exact hne
  all_goals exact absurd hok (by simp)

theorem eligibility_rule_witness :
    ((mkPetitionRow cfg0 (headerIndex hdrC) valsC).is_published =
      published_matches (cellLookup (headerIndex hdrC) valsC cfg0.published_column)
        cfg0.published_value) ∧
    ¬cfgLC.published_column = [] :=
  ⟨eligibility_rule.1 cfg0 (headerIndex hdrC) valsC,
    eligibility_rule.2.2 envC cfgLC (by decide)⟩

/-- C7: extraction is total — with a valid header, every data row yields
exactly one `PetitionRow` (none is dropped), and a cell lookup whose column
index falls beyond the end of a short data row yields the empty string rather
than an error. -/
theorem rows_from_zip_total_and_tolerant :
    (∀ (cfg : QualtricsConfig) (hs : List Str) (dataRows : List (List Str))
        (rows : List PetitionRow),
      rows_from_zip (some hs) dataRows cfg = .ok rows → rows.length = dataRows.length) ∧
    (∀ (hidx : List (Str × Nat)) (vals : List Str) (col : Str) (idx : Nat),
      getHIdx hidx col = some idx → vals.length ≤ idx → cellLookup hidx vals col = []) := by
  constructor
  · intro cfg hs dataRows rows hok
    simp only [rows_from_zip] at hok
    split at hok
    · cases hok
      simp
    · cases hok
  · intro hidx vals col idx hg hlen
    by_cases hcol : col = []
    · simp [cellLookup, hcol]
    · simp only [cellLookup, if_neg hcol, hg]
      rw [if_neg (by omega)]

theorem rows_from_zip_total_and_tolerant_witness :
    (rows_from_zip (some hdrC) [valsC, []] cfg0 =
      .ok [rowYes, { title := [], body := [], response_id := [], recorded_date := [],
                     is_published := false }] ∧
      ([rowYes, { title := [], body := [], response_id := [], recorded_date := [],
                  is_published := false }] : List PetitionRow).length =
        ([valsC, []] : List (List Str)).length) ∧
    (getHIdx (headerIndex hdrC) "T".toList = some 0 ∧
      ([] : List Str).length ≤ 0 ∧
      cellLookup (headerIndex hdrC) [] "T".toList = []) := by
  refine ⟨⟨by decide, ?_⟩, by decide, by decide, ?_⟩
  · exact rows_from_zip_total_and_tolerant.1 cfg0 hdrC [valsC, []] _ (by decide)
  · exact rows_from_zip_total_and_tolerant.2 (headerIndex hdrC) [] "T".toList 0
      (by decide) (by decide)

/-! ### Counting -/

theorem syncStep_counts (tok : Str → Str → Str) (cfg : QualtricsConfig) (dry : Bool)
    (st : SyncState) (row : PetitionRow) :
    (syncStep tok cfg dry st row).created + (syncStep tok cfg dry st row).updated +
      (syncStep tok cfg dry st row).skipped =
      st.created + st.updated + st.skipped + 1 := by
  unfold syncStep
  split
  · dsimp only
    omega
  · split
    · dsimp only
      omega
    · split
      · dsimp only
        omega
      · by_cases hc : stepCurrent st row = none <;> simp [hc] <;> omega

theorem sync_rows_counts_aux (tok : Str → Str → Str) (cfg : QualtricsConfig) (dry : Bool) :
    ∀ (rows : List PetitionRow) (st : SyncState),
      (rows.foldl (syncStep tok cfg dry) st).created +
        (rows.foldl (syncStep tok cfg dry) st).updated +
        (rows.foldl (syncStep tok cfg dry) st).skipped =
        st.created + st.updated + st.skipped + rows.length := by
  intro rows
  induction rows with
  | nil => simp
  | cons row rest ih =>
    intro st
    simp only [List.foldl_cons, List.length_cons]
    rw [ih (syncStep tok cfg dry st row), syncStep_counts]
    omega

/-- C10: every row lands in exactly one bucket — for every row list, starting
directory and mode, `sync_rows` returns counts with
`created + updated + skipped = rows.length`. -/
theorem sync_rows_count_partition (tok : Str → Str → Str) (rows : List PetitionRow)
    (cfg : QualtricsConfig) (dry_run : Bool) (fs0 : FSt) :
    (sync_rows tok rows cfg dry_run fs0).created +
      (sync_rows tok rows cfg dry_run fs0).updated +
      (sync_rows tok rows cfg dry_run fs0).skipped = rows.length := by
  unfold sync_rows
  rw [sync_rows_counts_aux]
  simp

/-! ### Scanning and the reconciler invariants -/

theorem getIdx_cons_some {e : Str × Str} {m : Idx} {k p : Str}
    (h : getIdx (e :: m) k = some p) :
    (e.1 = k ∧ e.2 = p) ∨ (¬e.1 = k ∧ getIdx m k = some p) := by
  simp only [getIdx] at h
  split at h
  · rename_i he
    cases h
    exact Or.inl ⟨he, rfl⟩
  · rename_i he
    exact Or.inr ⟨he, h⟩

theorem getIdx_isSome_cons {e : Str × Str} {m : Idx} {k : Str}
    (h : ¬getIdx m k = none) : ¬getIdx (e :: m) k = none := by
  simp only [getIdx]
  split
  · simp
  · exact h

theorem scanEntry_ok {fsAll : FSt} (hwf : FSWF fsAll) {acc : Idx} {e : Str × Str}
    (he : e ∈ fsAll)
    (hacc : ∀ R p, getIdx acc R = some p → Holds fsAll p R) :
    ∀ R p, getIdx (scanEntry acc e) R = some p → Holds fsAll p R := by
  intro R p h
  unfold scanEntry at h
  split at h
  · rename_i hsuf
    split at h
    · rename_i rid hparse
      split at h
      · exact hacc R p h
      · rename_i hrid
        rcases getIdx_cons_some h with ⟨h1, h2⟩ | ⟨_, h3⟩
        · subst h1
          subst h2
          refine ⟨hrid, hsuf, ?_⟩
          rw [lookupFS_of_mem hwf he]
          simpa using hparse
        · exact hacc R p h3
    · exact hacc R p h
  · exact hacc R p h

theorem scan_ok {fs : FSt} (hwf : FSWF fs) :
    ∀ R p, getIdx (scan_existing_petitions fs) R = some p → Holds fs p R := by
  unfold scan_existing_petitions
  suffices hgen : ∀ (l : FSt) (acc : Idx), (∀ e ∈ l, e ∈ fs) →
      (∀ R p, getIdx acc R = some p → Holds fs p R) →
      ∀ R p, getIdx (l.foldl scanEntry acc) R = some p → Holds fs p R by
    exact hgen fs [] (fun _ h => h) (by intro R p h; simp [getIdx] at h)
  intro l
  induction l with
  | nil => intro acc _ hacc; exact hacc
  | cons e rest ih =>
    intro acc hmem hacc
    simp only [List.foldl_cons]
    exact ih (scanEntry acc e) (fun x hx => hmem x (List.mem_cons_of_mem _ hx))
      (scanEntry_ok hwf (hmem e (List.mem_cons_self _ _)) hacc)

theorem getIdx_isSome_scanEntry {acc : Idx} {e : Str × Str} {k : Str}
    (h : ¬getIdx acc k = none) : ¬getIdx (scanEntry acc e) k = none := by
  unfold scanEntry
  split
  · split
    · split
      · exact h
      · exact getIdx_isSome_cons h
    · exact h
  · exact h

theorem scan_complete {fs : FSt} {p R : Str} (h : Holds fs p R) :
    ¬getIdx (scan_existing_petitions fs) R = none := by
  obtain ⟨hR, hsuf, hc⟩ := h
  cases hlc : lookupFS fs p with
  | none => rw [hlc] at hc; simp at hc
  | some c =>
    rw [hlc] at hc
    have hc2 : parseId c = some R := hc
    have hmem : (p, c) ∈ fs := lookupFS_mem hlc
    unfold scan_existing_petitions
    suffices hgen : ∀ (l : FSt) (acc : Idx),
        ((p, c) ∈ l ∨ ¬getIdx acc R = none) →
        ¬getIdx (l.foldl scanEntry acc) R = none by
      exact hgen fs [] (Or.inl hmem)
    intro l
    induction l with
    | nil =>
      intro acc hor
      rcases hor with hor | hor
      · simp at hor
      · exact hor
    | cons e rest ih =>
      intro acc hor
      simp only [List.foldl_cons]
      apply ih
      rcases hor with hor | hor
      · rcases List.mem_cons.mp hor with hor | hor
        · right
          rw [← hor]
          unfold scanEntry
          rw [if_pos (by simpa using hsuf)]
          rw [show parseId (p, c).2 = some R from hc2]
          show ¬getIdx (if R = [] then acc else (R, (p, c).1) :: acc) R = none
          rw [if_neg hR]
          simp [getIdx]
        · exact Or.inl hor
      · exact Or.inr (getIdx_isSome_scanEntry hor)

theorem choose_free_or_current (tok : Str → Str → Str) (response_id key : Str)
    (current : Option Str) (fs : FSt) :
    lookupFS fs (choose_petition_path tok response_id key current fs) = none ∨
      current = some (choose_petition_path tok response_id key current fs) := by
  apply probeAux_free_or_current
  obtain ⟨i, hi, hfree⟩ := exists_free_candidate fs ("petition-".toList ++ tok response_id key)
    1 (le_refl 1)
  exact ⟨i, by omega, hfree⟩

theorem choose_suffix (tok : Str → Str → Str) (response_id key : Str)
    (current : Option Str) (fs : FSt) :
    ".md".toList.isSuffixOf (choose_petition_path tok response_id key current fs) = true := by
  obtain ⟨m, _, he⟩ := probeAux_shape fs current ("petition-".toList ++ tok response_id key)
    (fs.length + 1) 1
  rw [show choose_petition_path tok response_id key current fs =
    probeAux fs current ("petition-".toList ++ tok response_id key) (fs.length + 1) 1 from rfl]
  rw [he]
  exact candidateName_suffix _ _

theorem eligibleRow_iff (row : PetitionRow) :
    eligibleRow row = true ↔
      (row.is_published = true ∧ ¬row.response_id = [] ∧ ¬row.title = [] ∧
        ¬row.body = []) := by
  simp only [eligibleRow, Bool.and_eq_true, Bool.not_eq_true']
  constructor
  · rintro ⟨⟨⟨h1, h2⟩, h3⟩, h4⟩
    refine ⟨h1, ?_, ?_, ?_⟩ <;> intro hc <;> simp_all
  · rintro ⟨h1, h2, h3, h4⟩
    refine ⟨⟨⟨h1, ?_⟩, ?_⟩, ?_⟩ <;> simp_all

/-- In dry-run mode the directory is never touched (per step). -/
theorem syncStep_dry_fs (tok : Str → Str → Str) (cfg : QualtricsConfig)
    (st : SyncState) (row : PetitionRow) :
    (syncStep tok cfg true st row).fs = st.fs := by
  have hfs1 : stepFs1 tok cfg true st row = st.fs := by
    unfold stepFs1
    rw [if_neg (by simp)]
  unfold syncStep
  split
  · rfl
  · split
    · rfl
    · split
      · exact hfs1
      · dsimp only
        rw [if_neg (by simp), hfs1]

theorem stepBaseline_real (tok : Str → Str → Str) (cfg : QualtricsConfig)
    (st : SyncState) (row : PetitionRow) :
    stepBaseline tok cfg false st row = stepTarget tok cfg st row := by
  unfold stepBaseline
  rw [if_neg (by simp)]

theorem stepMoved_none {st : SyncState} {row : PetitionRow}
    (tok : Str → Str → Str) (cfg : QualtricsConfig)
    (h : stepCurrent st row = none) : stepMoved tok cfg st row = false := by
  unfold stepMoved
  rw [h]

theorem stepMoved_some_eq {st : SyncState} {row : PetitionRow} {cp : Str}
    (tok : Str → Str → Str) (cfg : QualtricsConfig)
    (h : stepCurrent st row = some cp) (he : cp = stepTarget tok cfg st row) :
    stepMoved tok cfg st row = false := by
  unfold stepMoved
  rw [h]
  simp only []
  rw [if_pos he]

theorem stepMoved_some_ne {st : SyncState} {row : PetitionRow} {cp : Str}
    (tok : Str → Str → Str) (cfg : QualtricsConfig)
    (h : stepCurrent st row = some cp) (he : ¬cp = stepTarget tok cfg st row) :
    stepMoved tok cfg st row = true := by
  unfold stepMoved
  rw [h]
  simp only []
  rw [if_neg he]

theorem stepFs1_unmoved {st : SyncState} {row : PetitionRow}
    (tok : Str → Str → Str) (cfg : QualtricsConfig) (dry : Bool)
    (h : stepMoved tok cfg st row = false) : stepFs1 tok cfg dry st row = st.fs := by
  unfold stepFs1
  rw [if_neg (by simp [h])]

theorem stepFs1_moved {st : SyncState} {row : PetitionRow} {cp : Str}
    (tok : Str → Str → Str) (cfg : QualtricsConfig)
    (hm : stepMoved tok cfg st row = true) (hc : stepCurrent st row = some cp) :
    stepFs1 tok cfg false st row = renameFS st.fs cp (stepTarget tok cfg st row) := by
  unfold stepFs1
  rw [if_pos ⟨hm, rfl⟩, hc]
  rfl

theorem syncStep_skip1 (tok : Str → Str → Str) (cfg : QualtricsConfig) (dry : Bool)
    (st : SyncState) (row : PetitionRow) (h : row.is_published = false) :
    syncStep tok cfg dry st row = { st with skipped := st.skipped + 1 } := by
  unfold syncStep
  rw [if_pos h]

theorem syncStep_skip2 (tok : Str → Str → Str) (cfg : QualtricsConfig) (dry : Bool)
    (st : SyncState) (row : PetitionRow) (h1 : ¬row.is_published = false)
    (h2 : row.response_id = [] ∨ row.title = [] ∨ row.body = []) :
    syncStep tok cfg dry st row = { st with skipped := st.skipped + 1 } := by
  unfold syncStep
  rw [if_neg h1, if_pos h2]

theorem syncStep_skip3 (tok : Str → Str → Str) (cfg : QualtricsConfig) (dry : Bool)
    (st : SyncState) (row : PetitionRow) (h1 : ¬row.is_published = false)
    (h2 : ¬(row.response_id = [] ∨ row.title = [] ∨ row.body = []))
    (h3 : stepAlready tok cfg dry st row = some (renderRow row))
    (h4 : stepMoved tok cfg st row = false) :
    syncStep tok cfg dry st row =
      { st with
        skipped := st.skipped + 1
        index := (row.response_id, stepTarget tok cfg st row) :: st.index
        fs := stepFs1 tok cfg dry st row } := by
  unfold syncStep
  rw [if_neg h1, if_neg h2, if_pos ⟨h3, h4⟩]

theorem syncStep_main (tok : Str → Str → Str) (cfg : QualtricsConfig) (dry : Bool)
    (st : SyncState) (row : PetitionRow) (h1 : ¬row.is_published = false)
    (h2 : ¬(row.response_id = [] ∨ row.title = [] ∨ row.body = []))
    (h3 : ¬(stepAlready tok cfg dry st row = some (renderRow row) ∧
      stepMoved tok cfg st row = false)) :
    syncStep tok cfg dry st row =
      { st with
        created := if stepCurrent st row = none then st.created + 1 else st.created
        updated := if stepCurrent st row = none then st.updated else st.updated + 1
        index := (row.response_id, stepTarget tok cfg st row) :: st.index
        fs :=
          if dry = false ∧ ¬stepAlready tok cfg dry st row = some (renderRow row) then
            writeFS (stepFs1 tok cfg dry st row) (stepTarget tok cfg st row) (renderRow row)
          else stepFs1 tok cfg dry st row } := by
  unfold syncStep
  rw [if_neg h1, if_neg h2, if_neg h3]

theorem holds_iff {fs : FSt} {x R : Str} :
    Holds fs x R ↔ ¬R = [] ∧ ".md".toList.isSuffixOf x = true ∧
      ∃ c, lookupFS fs x = some c ∧ parseId c = some R := by
  unfold Holds
  rw [Option.bind_eq_some]

theorem holds_writeFS {fs : FSt} {tgt md : Str} (x R : Str) :
    Holds (writeFS fs tgt md) x R ↔
      ((x = tgt ∧ ¬R = [] ∧ ".md".toList.isSuffixOf tgt = true ∧ parseId md = some R) ∨
        (¬x = tgt ∧ Holds fs x R)) := by
  rw [holds_iff, holds_iff]
  by_cases hx : x = tgt
  · subst hx
    rw [lookupFS_writeFS, if_pos rfl]
    constructor
    · rintro ⟨h1, h2, c, hc, hp⟩
      have hcm : md = c := by injection hc
      exact Or.inl ⟨rfl, h1, h2, by rw [hcm]; exact hp⟩
    · rintro (⟨_, h1, h2, hp⟩ | ⟨hne, _⟩)
      · exact ⟨h1, h2, md, rfl, hp⟩
      · exact absurd rfl hne
  · rw [lookupFS_writeFS]
    rw [if_neg (fun h => hx h.symm)]
    simp [hx]

theorem syncStep_preserves (tok : Str → Str → Str) (cfg : QualtricsConfig)
    (st : SyncState) (row : PetitionRow) (hg : GoodState st) (hrow : RowSafe row) :
    GoodState (syncStep tok cfg false st row) ∧
    (∀ p R, Holds st.fs p R → ∃ p', Holds (syncStep tok cfg false st row).fs p' R) ∧
    (UniqueIds st.fs → UniqueIds (syncStep tok cfg false st row).fs) := by
  obtain ⟨hwf, hok, hcomp⟩ := hg
  by_cases h1 : row.is_published = false
  · rw [syncStep_skip1 tok cfg false st row h1]
    exact ⟨⟨hwf, hok, hcomp⟩, fun p R h => ⟨p, h⟩, fun hU => hU⟩
  by_cases h2 : row.response_id = [] ∨ row.title = [] ∨ row.body = []
  · rw [syncStep_skip2 tok cfg false st row h1 h2]
    exact ⟨⟨hwf, hok, hcomp⟩, fun p R h => ⟨p, h⟩, fun hU => hU⟩
  have h2' := h2
  push_neg at h2'
  obtain ⟨hrid, htit, hbod⟩ := h2'
  have hpub : row.is_published = true := by
    cases hb : row.is_published
    · exact absurd hb h1
    · rfl
  have helig : eligibleRow row = true := (eligibleRow_iff row).mpr ⟨hpub, hrid, htit, hbod⟩
  have hrt : parseId (renderRow row) = some row.response_id := hrow helig
  have hsuf := choose_suffix tok row.response_id cfg.url_encryption_key (stepCurrent st row) st.fs
  have hfoc := choose_free_or_current tok row.response_id cfg.url_encryption_key
    (stepCurrent st row) st.fs
  have htgt : stepTarget tok cfg st row =
      choose_petition_path tok row.response_id cfg.url_encryption_key
        (stepCurrent st row) st.fs := rfl
  rw [← htgt] at hsuf hfoc
  cases hcur : stepCurrent st row with
  | none =>
    rw [hcur] at hfoc
    have hmv := stepMoved_none tok cfg hcur
    have hfs1 : stepFs1 tok cfg false st row = st.fs := stepFs1_unmoved tok cfg false hmv
    have hfree : lookupFS st.fs (stepTarget tok cfg st row) = none := by
      rcases hfoc with h | h
      · exact h
      · cases h
    have halr : stepAlready tok cfg false st row = none := by
      unfold stepAlready
      rw [stepBaseline_real, hfs1, hfree]
    have hmain := syncStep_main tok cfg false st row h1 h2
      (by intro hcon; rw [halr] at hcon; exact absurd hcon.1 (by simp))
    rw [hmain, hcur]
    have hife : (if (false : Bool) = false ∧
        ¬stepAlready tok cfg false st row = some (renderRow row) then
          writeFS (stepFs1 tok cfg false st row) (stepTarget tok cfg st row) (renderRow row)
        else stepFs1 tok cfg false st row) =
        writeFS st.fs (stepTarget tok cfg st row) (renderRow row) := by
      rw [if_pos ⟨rfl, by rw [halr]; simp⟩, hfs1]
    rw [hife]
    -- the new state has fs = writeFS st.fs tgt md, index = (rid, tgt) :: st.index
    have hnoR : ∀ q, ¬Holds st.fs q row.response_id := by
      intro q hq
      have := hcomp q row.response_id hq
      unfold stepCurrent at hcur
      exact this hcur
    have hchar : ∀ x R, Holds (writeFS st.fs (stepTarget tok cfg st row) (renderRow row)) x R ↔
        ((x = stepTarget tok cfg st row ∧ R = row.response_id) ∨
          (¬x = stepTarget tok cfg st row ∧ Holds st.fs x R)) := by
      intro x R
      rw [holds_writeFS]
      constructor
      · rintro (⟨hx, _, _, hp⟩ | h)
        · rw [hrt] at hp
          cases hp
          exact Or.inl ⟨hx, rfl⟩
        · exact Or.inr h
      · rintro (⟨hx, hR⟩ | h)
        · subst hR
          exact Or.inl ⟨hx, hrid, hsuf, hrt⟩
        · exact Or.inr h
    refine ⟨⟨FSWF_writeFS _ _ hwf, ?_, ?_⟩, ?_, ?_⟩
    · -- IdxFaithful.1
      intro R p hp
      dsimp only at hp ⊢
      rcases getIdx_cons_some hp with ⟨hR, hpt⟩ | ⟨hne, hold⟩
      · subst hpt
        rw [hchar]
        exact Or.inl ⟨rfl, hR.symm⟩
      · have hh := hok R p hold
        rw [hchar]
        refine Or.inr ⟨?_, hh⟩
        intro hpt
        subst hpt
        obtain ⟨_, _, c, hc, _⟩ := holds_iff.mp hh
        rw [hfree] at hc
        cases hc
    · -- IdxFaithful.2
      intro p R hp
      dsimp only
      rcases (hchar p R).mp hp with ⟨hpt, hR⟩ | ⟨hpt, hh⟩
      · subst hR
        simp [getIdx]
      · apply getIdx_isSome_cons
        exact hcomp p R hh
    · -- holder preservation
      intro p R hp
      refine ⟨p, ?_⟩
      dsimp only
      rw [hchar]
      refine Or.inr ⟨?_, hp⟩
      intro hpt
      subst hpt
      obtain ⟨_, _, c, hc, _⟩ := holds_iff.mp hp
      rw [hfree] at hc
      cases hc
    · -- uniqueness
      intro hU a b R ha hb
      dsimp only at ha hb
      rcases (hchar a R).mp ha with ⟨hat, haR⟩ | ⟨hat, hah⟩ <;>
        rcases (hchar b R).mp hb with ⟨hbt, hbR⟩ | ⟨hbt, hbh⟩
      · rw [hat, hbt]
      · subst haR
        exact absurd hbh (hnoR b)
      · subst hbR
        exact absurd hah (hnoR a)
      · exact hU a b R hah hbh
  | some cp =>
    have hcp : Holds st.fs cp row.response_id := hok row.response_id cp hcur
    have hsufcp : ".md".toList.isSuffixOf cp = true := hcp.2.1
    obtain ⟨ccur, hlcp, hpcp⟩ := Option.bind_eq_some.mp hcp.2.2
    by_cases hct : cp = stepTarget tok cfg st row
    · -- B1: current already at the resolved target, no move
      have hmv := stepMoved_some_eq tok cfg hcur hct
      have hfs1 := stepFs1_unmoved tok cfg false hmv
      have halr : stepAlready tok cfg false st row = some ccur := by
        unfold stepAlready
        rw [stepBaseline_real, hfs1, ← hct, hlcp]
      by_cases hcm : ccur = renderRow row
      · -- B1a: content unchanged, skip branch
        have hsk := syncStep_skip3 tok cfg false st row h1 h2 (by rw [halr, hcm]) hmv
        rw [hsk, hfs1]
        refine ⟨⟨hwf, ?_, ?_⟩, fun p R hp => ⟨p, hp⟩, fun hU => hU⟩
        · intro R p hp
          dsimp only at hp ⊢
          rcases getIdx_cons_some hp with ⟨hR, hpt⟩ | ⟨hne, hold⟩
          · subst hpt
            rw [← hct, ← hR]
            exact hcp
          · exact hok R p hold
        · intro p R hp
          dsimp only
          exact getIdx_isSome_cons (hcomp p R hp)
      · -- B1b: content changed, rewrite in place
        have hmain := syncStep_main tok cfg false st row h1 h2
          (fun hcon => hcm (by
            rw [halr] at hcon
            injection hcon.1))
        rw [hmain, hfs1]
        have hife : (if (false : Bool) = false ∧
            ¬stepAlready tok cfg false st row = some (renderRow row) then
              writeFS st.fs (stepTarget tok cfg st row) (renderRow row)
            else st.fs) =
            writeFS st.fs (stepTarget tok cfg st row) (renderRow row) := by
          rw [if_pos ⟨rfl, by rw [halr]; intro h; exact hcm (by injection h)⟩]
        rw [hife]
        have hchar : ∀ x R,
            Holds (writeFS st.fs (stepTarget tok cfg st row) (renderRow row)) x R ↔
            ((x = stepTarget tok cfg st row ∧ R = row.response_id) ∨
              (¬x = stepTarget tok cfg st row ∧ Holds st.fs x R)) := by
          intro x R
          rw [holds_writeFS]
          constructor
          · rintro (⟨hx, _, _, hp⟩ | h)
            · rw [hrt] at hp
              cases hp
              exact Or.inl ⟨hx, rfl⟩
            · exact Or.inr h
          · rintro (⟨hx, hR⟩ | h)
            · subst hR
              exact Or.inl ⟨hx, hrid, hsuf, hrt⟩
            · exact Or.inr h
        have hparse_tgt : ∀ R, Holds st.fs (stepTarget tok cfg st row) R →
            R = row.response_id := by
          intro R hh
          obtain ⟨_, _, c, hc, hpc⟩ := holds_iff.mp hh
          rw [← hct] at hc
          rw [hlcp] at hc
          have : ccur = c := by injection hc
          subst this
          rw [hpcp] at hpc
          injection hpc with hRe
          exact hRe.symm
        refine ⟨⟨FSWF_writeFS _ _ hwf, ?_, ?_⟩, ?_, ?_⟩
        · intro R p hp
          dsimp only at hp ⊢
          rcases getIdx_cons_some hp with ⟨hR, hpt⟩ | ⟨hne, hold⟩
          · subst hpt
            rw [hchar]
            exact Or.inl ⟨rfl, hR.symm⟩
          · have hh := hok R p hold
            rw [hchar]
            by_cases hpt : p = stepTarget tok cfg st row
            · subst hpt
              exact Or.inl ⟨rfl, hparse_tgt R hh⟩
            · exact Or.inr ⟨hpt, hh⟩
        · intro p R hp
          dsimp only
          rcases (hchar p R).mp hp with ⟨hpt, hR⟩ | ⟨hpt, hh⟩
          · subst hR
            simp [getIdx]
          · exact getIdx_isSome_cons (hcomp p R hh)
        · intro p R hp
          by_cases hpt : p = stepTarget tok cfg st row
          · subst hpt
            refine ⟨stepTarget tok cfg st row, ?_⟩
            dsimp only
            rw [hchar]
            exact Or.inl ⟨rfl, hparse_tgt R hp⟩
          · refine ⟨p, ?_⟩
            dsimp only
            rw [hchar]
            exact Or.inr ⟨hpt, hp⟩
        · intro hU a b R ha hb
          dsimp only at ha hb
          rcases (hchar a R).mp ha with ⟨hat, haR⟩ | ⟨hat, hah⟩ <;>
            rcases (hchar b R).mp hb with ⟨hbt, hbR⟩ | ⟨hbt, hbh⟩
          · rw [hat, hbt]
          · subst haR
            have := hU b cp row.response_id hbh hcp
            rw [this, hct] at hbt
            exact absurd rfl hbt
          · subst hbR
            have := hU a cp row.response_id hah hcp
            rw [this, hct] at hat
            exact absurd rfl hat
          · exact hU a b R hah hbh
    · -- B2: a rename is warranted
      have hmv := stepMoved_some_ne tok cfg hcur hct
      have hfree : lookupFS st.fs (stepTarget tok cfg st row) = none := by
        rcases hfoc with h | h
        · exact h
        · rw [hcur] at h
          have : cp = stepTarget tok cfg st row := by injection h
          exact absurd this hct
      have hfs1 := stepFs1_moved tok cfg hmv hcur
      have hlook1 := lookupFS_renameFS (stepTarget tok cfg st row) hlcp
      have halr : stepAlready tok cfg false st row = some ccur := by
        unfold stepAlready
        rw [stepBaseline_real, hfs1, hlook1, if_pos rfl]
      have hmain := syncStep_main tok cfg false st row h1 h2
        (fun hcon => by rw [hmv] at hcon; exact absurd hcon.2 (by simp))
      have hfsS : (syncStep tok cfg false st row).fs =
          (if (false : Bool) = false ∧
              ¬stepAlready tok cfg false st row = some (renderRow row) then
            writeFS (stepFs1 tok cfg false st row) (stepTarget tok cfg st row) (renderRow row)
          else stepFs1 tok cfg false st row) := by
        rw [hmain]
      have hidxS : (syncStep tok cfg false st row).index =
          (row.response_id, stepTarget tok cfg st row) :: st.index := by
        rw [hmain]
      have hwf1 : FSWF (renameFS st.fs cp (stepTarget tok cfg st row)) :=
        FSWF_renameFS _ _ hwf
      have hwf2 : FSWF ((syncStep tok cfg false st row).fs) := by
        rw [hfsS]
        split
        · rw [hfs1]
          exact FSWF_writeFS _ _ hwf1
        · rw [hfs1]
          exact hwf1
      have hlookF : ∀ q, lookupFS ((syncStep tok cfg false st row).fs) q =
          if q = stepTarget tok cfg st row then some (renderRow row)
          else if q = cp then none else lookupFS st.fs q := by
        intro q
        rw [hfsS]
        by_cases hcm : ccur = renderRow row
        · rw [if_neg (by rw [halr, hcm]; simp), hfs1, hlook1]
          rw [← hcm]
        · rw [if_pos ⟨rfl, by rw [halr]; intro h; exact hcm (by injection h)⟩, hfs1]
          rw [lookupFS_writeFS]
          by_cases hq : q = stepTarget tok cfg st row
          · rw [if_pos hq.symm, if_pos hq]
          · rw [if_neg (fun h => hq h.symm), if_neg hq, hlook1, if_neg hq]
      have hchar : ∀ x R, Holds ((syncStep tok cfg false st row).fs) x R ↔
          ((x = stepTarget tok cfg st row ∧ R = row.response_id) ∨
            (¬x = stepTarget tok cfg st row ∧ ¬x = cp ∧ Holds st.fs x R)) := by
        intro x R
        rw [holds_iff, holds_iff]
        constructor
        · rintro ⟨hr, hsx, c, hcx, hpx⟩
          rw [hlookF] at hcx
          by_cases hx : x = stepTarget tok cfg st row
          · rw [if_pos hx] at hcx
            have : renderRow row = c := by injection hcx
            subst this
            rw [hrt] at hpx
            have hRe : row.response_id = R := by injection hpx
            exact Or.inl ⟨hx, hRe.symm⟩
          · rw [if_neg hx] at hcx
            by_cases hxc : x = cp
            · rw [if_pos hxc] at hcx
              cases hcx
            · rw [if_neg hxc] at hcx
              exact Or.inr ⟨hx, hxc, hr, hsx, c, hcx, hpx⟩
        · rintro (⟨hx, hR⟩ | ⟨hx, hxc, hr, hsx, c, hcx, hpx⟩)
          · subst hx
            subst hR
            refine ⟨hrid, hsuf, renderRow row, ?_, hrt⟩
            rw [hlookF, if_pos rfl]
          · refine ⟨hr, hsx, c, ?_, hpx⟩
            rw [hlookF, if_neg hx, if_neg hxc]
            exact hcx
      have hparse_cp : ∀ R, Holds st.fs cp R → R = row.response_id := by
        intro R hh
        obtain ⟨_, _, c, hc, hpc⟩ := holds_iff.mp hh
        rw [hlcp] at hc
        have : ccur = c := by injection hc
        subst this
        rw [hpcp] at hpc
        injection hpc with hRe
        exact hRe.symm
      refine ⟨⟨hwf2, ?_, ?_⟩, ?_, ?_⟩
      · intro R p hp
        rw [hidxS] at hp
        rcases getIdx_cons_some hp with ⟨hR, hpt⟩ | ⟨hne, hold⟩
        · rw [hchar]
          exact Or.inl ⟨hpt.symm, hR.symm⟩
        · have hh := hok R p hold
          have hpne : ¬p = stepTarget tok cfg st row := by
            intro hpt
            subst hpt
            obtain ⟨_, _, c, hc, _⟩ := holds_iff.mp hh
            rw [hfree] at hc
            cases hc
          have hpcp2 : ¬p = cp := by
            intro hpc2
            subst hpc2
            exact hne (hparse_cp R hh).symm
          rw [hchar]
          exact Or.inr ⟨hpne, hpcp2, hh⟩
      · intro p R hp
        rw [hidxS]
        rcases (hchar p R).mp hp with ⟨hpt, hR⟩ | ⟨_, _, hh⟩
        · subst hR
          simp [getIdx]
        · exact getIdx_isSome_cons (hcomp p R hh)
      · intro p R hp
        by_cases hpc2 : p = cp
        · subst hpc2
          refine ⟨stepTarget tok cfg st row, ?_⟩
          rw [hchar]
          exact Or.inl ⟨rfl, hparse_cp R hp⟩
        · have hpne : ¬p = stepTarget tok cfg st row := by
            intro hpt
            subst hpt
            obtain ⟨_, _, c, hc, _⟩ := holds_iff.mp hp
            rw [hfree] at hc
            cases hc
          refine ⟨p, ?_⟩
          rw [hchar]
          exact Or.inr ⟨hpne, hpc2, hp⟩
      · intro hU a b R ha hb
        rcases (hchar a R).mp ha with ⟨hat, haR⟩ | ⟨hat, hac, hah⟩ <;>
          rcases (hchar b R).mp hb with ⟨hbt, hbR⟩ | ⟨hbt, hbc, hbh⟩
        · rw [hat, hbt]
        · subst haR
          have := hU b cp row.response_id hbh hcp
          exact absurd this hbc
        · subst hbR
          have := hU a cp row.response_id hah hcp
          exact absurd this hac
        · exact hU a b R hah hbh

theorem sync_fold_preserves (tok : Str → Str → Str) (cfg : QualtricsConfig) :
    ∀ (rows : List PetitionRow) (st : SyncState),
      GoodState st → (∀ r ∈ rows, RowSafe r) →
      GoodState (rows.foldl (syncStep tok cfg false) st) ∧
      (∀ p R, Holds st.fs p R →
        ∃ p', Holds (rows.foldl (syncStep tok cfg false) st).fs p' R) ∧
      (UniqueIds st.fs → UniqueIds (rows.foldl (syncStep tok cfg false) st).fs) := by
  intro rows
  induction rows with
  | nil => exact fun st hg _ => ⟨hg, fun p R h => ⟨p, h⟩, fun hU => hU⟩
  | cons row rest ih =>
    intro st hg hrows
    simp only [List.foldl_cons]
    obtain ⟨hg', hpres, hUp⟩ := syncStep_preserves tok cfg st row hg
      (hrows row (List.mem_cons_self _ _))
    obtain ⟨hg2, hpres2, hUp2⟩ := ih (syncStep tok cfg false st row) hg'
      (fun r hr => hrows r (List.mem_cons_of_mem _ hr))
    refine ⟨hg2, ?_, fun hU => hUp2 (hUp hU)⟩
    intro p R h
    obtain ⟨q, hq⟩ := hpres p R h
    exact hpres2 q R hq

theorem sync_rows_initial_good {fs0 : FSt} (hwf : FSWF fs0) :
    GoodState ⟨scan_existing_petitions fs0, 0, 0, 0, fs0⟩ :=
  ⟨hwf, scan_ok hwf, fun _ _ h => scan_complete h⟩

theorem sync_rows_dry_keeps_fs (tok : Str → Str → Str) (rows : List PetitionRow)
    (cfg : QualtricsConfig) (fs0 : FSt) :
    (sync_rows tok rows cfg true fs0).fs = fs0 := by
  unfold sync_rows
  suffices hgen : ∀ (l : List PetitionRow) (st : SyncState),
      (l.foldl (syncStep tok cfg true) st).fs = st.fs by
    exact hgen rows _
  intro l
  induction l with
  | nil => intro st; rfl
  | cons row rest ih =>
    intro st
    simp only [List.foldl_cons]
    rw [ih, syncStep_dry_fs]

/-- C2 (counterexample): uniqueness can be broken by a response id carrying
surrounding double quotes.  Starting from a directory with a single document
holding id `a`, syncing one eligible row whose id is `"a"` creates a second
file whose front matter also parses to `a` — two documents now hold the same
externalId after one run. -/
theorem uniqueness_violated_by_quoted_id :
    UniqueIds [("petition-x.md".toList, docPlainA)] ∧
    FSWF [("petition-x.md".toList, docPlainA)] ∧
    ¬UniqueIds (sync_rows tok0 [rowQuotedId] cfg0 false
      [("petition-x.md".toList, docPlainA)]).fs := by
  refine ⟨?_, by decide, ?_⟩
  · intro p q R hp hq
    obtain ⟨_, _, cp', hcp, _⟩ := holds_iff.mp hp
    obtain ⟨_, _, cq', hcq, _⟩ := holds_iff.mp hq
    have h1 : p = "petition-x.md".toList := by
      rcases List.mem_cons.mp (lookupFS_mem hcp) with h | h
      · cases h; rfl
      · simp at h
    have h2 : q = "petition-x.md".toList := by
      rcases List.mem_cons.mp (lookupFS_mem hcq) with h | h
      · cases h; rfl
      · simp at h
    rw [h1, h2]
  · intro hU
    have := hU "petition-x.md".toList ("petition-\"a\".md".toList) ('a' :: [])
      (by decide) (by decide)
    exact absurd this (by decide)

/-- C2 (amended): `sync_rows` preserves the at-most-one-document-per-externalId
invariant for every starting directory and every row list whose rows render
round-trippably (each eligible row's rendered document parses back to its own
id — true of all ids without leading/trailing quote characters or embedded
newlines).  The in-memory map is an id-keyed dictionary, hence a function by
construction.  Without the round-trip hypothesis the invariant can break (see
the counterexample). -/
theorem sync_rows_preserves_uniqueness (tok : Str → Str → Str)
    (rows : List PetitionRow) (cfg : QualtricsConfig) (dry_run : Bool) (fs0 : FSt)
    (hwf : FSWF fs0) (hU : UniqueIds fs0) (hrows : ∀ r ∈ rows, RowSafe r) :
    UniqueIds (sync_rows tok rows cfg dry_run fs0).fs := by
  cases dry_run with
  | true =>
    rw [sync_rows_dry_keeps_fs]
    exact hU
  | false =>
    unfold sync_rows
    exact (sync_fold_preserves tok cfg rows _ (sync_rows_initial_good hwf) hrows).2.2 hU

theorem sync_rows_preserves_uniqueness_witness :
    (FSWF ([] : FSt) ∧ UniqueIds ([] : FSt) ∧
      (∀ r ∈ [rowPothole], RowSafe r)) ∧
    UniqueIds (sync_rows tok0 [rowPothole] cfg0 false []).fs := by
  have h1 : FSWF ([] : FSt) := by decide
  have h2 : UniqueIds ([] : FSt) := by
    intro p q R hp _
    obtain ⟨_, _, c, hc, _⟩ := holds_iff.mp hp
    cases hc
  have h3 : ∀ r ∈ [rowPothole], RowSafe r := by
    intro r hr
    rcases List.mem_cons.mp hr with h | h
    · subst h
      intro _
      decide
    · simp at h
  exact ⟨⟨h1, h2, h3⟩,
    sync_rows_preserves_uniqueness tok0 [rowPothole] cfg0 false [] h1 h2 h3⟩

/-- C8 (counterexample): a document can stop being represented.  A hand-made
document at `petition-x.md` holds the id `"a` (its front-matter value `'"a'`
strips to `"a`).  Syncing one eligible row whose id is that same `"a` rewrites
the document in place, but the rewritten front matter `""a"` strips to `a` —
after the run no document holds `"a` any more. -/
theorem document_id_lost_on_rewrite :
    Holds [("petition-x.md".toList, docBareQuoteA)] "petition-x.md".toList
      ('"' :: 'a' :: []) ∧
    ¬∃ p', Holds (sync_rows tok0 [rowBareQuoteId] cfg0 false
      [("petition-x.md".toList, docBareQuoteA)]).fs p' ('"' :: 'a' :: []) := by
  constructor
  · decide
  · rintro ⟨p', hp'⟩
    obtain ⟨_, _, c, hc, hpc⟩ := holds_iff.mp hp'
    have hfs : (sync_rows tok0 [rowBareQuoteId] cfg0 false
        [("petition-x.md".toList, docBareQuoteA)]).fs =
        [("petition-\"a.md".toList, renderRow rowBareQuoteId)] := by decide
    rw [hfs] at hc
    rcases List.mem_cons.mp (lookupFS_mem hc) with h | h
    · cases h
      exact absurd hpc (by decide)
    · simp at h

/-- C8 (amended): no deletion — for every starting directory and every row
list whose rows render round-trippably, every externalId held by some document
before the run is still held by some document afterwards (possibly at a
renamed path); stale documents whose rows are absent or ineligible are left
untouched.  Without the round-trip hypothesis an id can vanish on rewrite (see
the counterexample). -/
theorem sync_rows_no_deletion (tok : Str → Str → Str) (rows : List PetitionRow)
    (cfg : QualtricsConfig) (dry_run : Bool) (fs0 : FSt) (hwf : FSWF fs0)
    (hrows : ∀ r ∈ rows, RowSafe r) (p R : Str) (h : Holds fs0 p R) :
    ∃ p', Holds (sync_rows tok rows cfg dry_run fs0).fs p' R := by
  cases dry_run with
  | true =>
    rw [sync_rows_dry_keeps_fs]
    exact ⟨p, h⟩
  | false =>
    unfold sync_rows
    exact (sync_fold_preserves tok cfg rows _ (sync_rows_initial_good hwf) hrows).2.1 p R h

theorem sync_rows_no_deletion_witness :
    (FSWF [("petition-x.md".toList, docPlainA)] ∧
      (∀ r ∈ [rowPothole], RowSafe r) ∧
      Holds [("petition-x.md".toList, docPlainA)] "petition-x.md".toList ('a' :: [])) ∧
    ∃ p', Holds (sync_rows tok0 [rowPothole] cfg0 false
      [("petition-x.md".toList, docPlainA)]).fs p' ('a' :: []) := by
  have h1 : FSWF [("petition-x.md".toList, docPlainA)] := by decide
  have h2 : ∀ r ∈ [rowPothole], RowSafe r := by
    intro r hr
    rcases List.mem_cons.mp hr with h | h
    · subst h
      intro _
      decide
    · simp at h
  have h3 : Holds [("petition-x.md".toList, docPlainA)] "petition-x.md".toList
      ('a' :: []) := by decide
  exact ⟨⟨h1, h2, h3⟩,
    sync_rows_no_deletion tok0 [rowPothole] cfg0 false
      [("petition-x.md".toList, docPlainA)] h1 h2 "petition-x.md".toList
      ('a' :: []) h3⟩

theorem rows_from_zip_reports_all_missing_columns_witness :
    ("B".toList ∈ requiredColumns cfg0 ∧ ¬"B".toList = [] ∧
      (∀ h ∈ ["T".toList, "R".toList], ¬trimS h = "B".toList)) ∧
    ∃ miss, rows_from_zip (some ["T".toList, "R".toList]) [] cfg0 = .error miss ∧
      "B".toList ∈ miss ∧
      ∀ c', c' ∈ requiredColumns cfg0 → ¬c' = [] →
        (∀ h ∈ ["T".toList, "R".toList], ¬trimS h = c') → c' ∈ miss :=
  ⟨⟨by decide, by decide, by decide⟩,
    rows_from_zip_reports_all_missing_columns cfg0 ["T".toList, "R".toList] [] "B".toList
      (by decide) (by decide) (by decide)⟩

/-! ### Runs from an empty directory -/

theorem canonPath_eq (tok : Str → Str → Str) (rid key : Str) :
    canonPath tok rid key = candidateName (canonBase tok rid key) 1 := by
  unfold canonPath candidateName
  rw [if_pos (by omega)]

theorem canonPath_suffix (tok : Str → Str → Str) (rid key : Str) :
    ".md".toList.isSuffixOf (canonPath tok rid key) = true := by
  rw [canonPath_eq]
  exact candidateName_suffix _ _

theorem canonPath_inj {tok : Str → Str → Str} {a b key : Str}
    (h : canonPath tok a key = canonPath tok b key) : tok a key = tok b key := by
  unfold canonPath canonBase at h
  simp only [List.append_assoc] at h
  exact List.append_cancel_right (List.append_cancel_left h)

theorem choose_of_first_free (tok : Str → Str → Str) (rid key : Str)
    (cur : Option Str) (fs : FSt)
    (h : lookupFS fs (canonPath tok rid key) = none) :
    choose_petition_path tok rid key cur fs = canonPath tok rid key := by
  have hc : candidateName (canonBase tok rid key) 1 = canonPath tok rid key :=
    (canonPath_eq tok rid key).symm
  show probeAux fs cur (canonBase tok rid key) (fs.length + 1) 1 = canonPath tok rid key
  simp only [probeAux]
  rw [hc]
  rw [if_neg]
  intro hcon
  have := hcon.1
  rw [existsFS, h] at this
  simp at this

theorem choose_keeps_canonical (tok : Str → Str → Str) (rid key : Str) (fs : FSt) :
    choose_petition_path tok rid key (some (canonPath tok rid key)) fs =
      canonPath tok rid key := by
  have hc : candidateName (canonBase tok rid key) 1 = canonPath tok rid key :=
    (canonPath_eq tok rid key).symm
  show probeAux fs (some (canonPath tok rid key)) (canonBase tok rid key)
    (fs.length + 1) 1 = canonPath tok rid key
  simp only [probeAux]
  rw [hc]
  rw [if_neg]
  intro hcon
  exact hcon.2 rfl

theorem writeFS_fresh {fs : FSt} {p c : Str} (h : lookupFS fs p = none) :
    writeFS fs p c = fs ++ [(p, c)] := by
  induction fs with
  | nil => rfl
  | cons e rest ih =>
    simp only [lookupFS] at h
    split at h
    · cases h
    · rename_i hne
      simp only [writeFS, if_neg hne, List.cons_append]
      rw [ih h]

theorem getIdx_none_iff {m : Idx} {k : Str} :
    getIdx m k = none ↔ ∀ e ∈ m, ¬e.1 = k := by
  induction m with
  | nil => simp [getIdx]
  | cons e rest ih =>
    simp only [getIdx]
    constructor
    · intro h
      split at h
      · cases h
      · rename_i hne
        intro x hx
        rcases List.mem_cons.mp hx with hx | hx
        · subst hx; exact hne
        · exact ih.mp h x hx
    · intro h
      rw [if_neg (h e (List.mem_cons_self _ _))]
      exact ih.mpr fun x hx => h x (List.mem_cons_of_mem _ hx)

theorem syncStep_inelig (tok : Str → Str → Str) (cfg : QualtricsConfig) (dry : Bool)
    (st : SyncState) (row : PetitionRow) (h : eligibleRow row = false) :
    syncStep tok cfg dry st row = { st with skipped := st.skipped + 1 } := by
  by_cases h1 : row.is_published = false
  · exact syncStep_skip1 tok cfg dry st row h1
  · apply syncStep_skip2 tok cfg dry st row h1
    by_contra h2
    push_neg at h2
    have hpub : row.is_published = true := by
      cases hb : row.is_published
      · exact absurd hb h1
      · rfl
    have := (eligibleRow_iff row).mpr ⟨hpub, h2.1, h2.2.1, h2.2.2⟩
    rw [h] at this
    cases this

theorem nodup_append_cons_ne {l1 l2 : List PetitionRow} {x : PetitionRow}
    (h : ((l1 ++ x :: l2).map (fun r => r.response_id)).Nodup) :
    ∀ y ∈ l1, ¬y.response_id = x.response_id := by
  intro y hy hxy
  rw [List.map_append, List.map_cons] at h
  rw [List.nodup_append] at h
  exact h.2.2 (List.mem_map.mpr ⟨y, hy, rfl⟩)
    (by rw [hxy]; exact List.mem_cons_self _ _)

theorem fsOfRows_append (tok : Str → Str → Str) (key : Str) (a b : List PetitionRow) :
    fsOfRows tok key (a ++ b) = fsOfRows tok key a ++ fsOfRows tok key b := by
  simp [fsOfRows]

theorem idxOfRows_append_single (tok : Str → Str → Str) (key : Str)
    (l : List PetitionRow) (r : PetitionRow) :
    idxOfRows tok key (l ++ [r]) =
      (r.response_id, canonPath tok r.response_id key) :: idxOfRows tok key l := by
  simp [idxOfRows]

theorem getIdx_idxOfRows_none {tok : Str → Str → Str} {key : Str}
    {l : List PetitionRow} {rid : Str}
    (h : ∀ r ∈ l, ¬r.response_id = rid) :
    getIdx (idxOfRows tok key l) rid = none := by
  rw [getIdx_none_iff]
  intro e he
  rw [idxOfRows, List.mem_reverse] at he
  obtain ⟨r, hr, hre⟩ := List.mem_map.mp he
  subst hre
  exact h r hr

theorem lookupFS_fsOfRows_none {tok : Str → Str → Str} {key : Str}
    {l : List PetitionRow} {rid : Str}
    (h : ∀ r ∈ l, ¬tok r.response_id key = tok rid key) :
    lookupFS (fsOfRows tok key l) (canonPath tok rid key) = none := by
  apply lookupFS_none_of_not_mem
  intro hmem
  rw [fsOfRows, List.map_map] at hmem
  obtain ⟨r, hr, hre⟩ := List.mem_map.mp hmem
  exact h r hr (canonPath_inj hre)

theorem run1_real_aux (tok : Str → Str → Str) (cfg : QualtricsConfig) :
    ∀ (rows doneE : List PetitionRow) (cr up sk : Nat),
      ((doneE ++ rows.filter eligibleRow).map (fun r => r.response_id)).Nodup →
      (∀ r1 ∈ doneE ++ rows.filter eligibleRow, ∀ r2 ∈ doneE ++ rows.filter eligibleRow,
        ¬r1.response_id = r2.response_id →
        ¬tok r1.response_id cfg.url_encryption_key = tok r2.response_id cfg.url_encryption_key) →
      rows.foldl (syncStep tok cfg false)
        ⟨idxOfRows tok cfg.url_encryption_key doneE, cr, up, sk,
          fsOfRows tok cfg.url_encryption_key doneE⟩ =
      ⟨idxOfRows tok cfg.url_encryption_key (doneE ++ rows.filter eligibleRow),
        cr + (rows.filter eligibleRow).length, up,
        sk + (rows.filter (fun r => !eligibleRow r)).length,
        fsOfRows tok cfg.url_encryption_key (doneE ++ rows.filter eligibleRow)⟩ := by
  intro rows
  induction rows with
  | nil =>
    intro doneE cr up sk _ _
    simp
  | cons row rest ih =>
    intro doneE cr up sk hND hTok
    cases hRE : eligibleRow row with
    | false =>
      have hfE : (row :: rest).filter eligibleRow = rest.filter eligibleRow := by
        rw [List.filter_cons]
        simp [hRE]
      rw [hfE] at hND hTok ⊢
      have hfN : (row :: rest).filter (fun r => !eligibleRow r) =
          row :: rest.filter (fun r => !eligibleRow r) := by
        rw [List.filter_cons]
        simp [hRE]
      rw [hfN, List.foldl_cons, syncStep_inelig tok cfg false _ row hRE]
      show rest.foldl (syncStep tok cfg false)
        ⟨idxOfRows tok cfg.url_encryption_key doneE, cr, up, sk + 1,
          fsOfRows tok cfg.url_encryption_key doneE⟩ = _
      rw [ih doneE cr up (sk + 1) hND hTok]
      simp only [SyncState.mk.injEq, List.length_cons, true_and, and_true]
      omega
    | true =>
      have hfE : (row :: rest).filter eligibleRow = row :: rest.filter eligibleRow := by
        rw [List.filter_cons]
        simp [hRE]
      rw [hfE] at hND hTok ⊢
      have hfN : (row :: rest).filter (fun r => !eligibleRow r) =
          rest.filter (fun r => !eligibleRow r) := by
        rw [List.filter_cons]
        simp [hRE]
      rw [hfN]
      have hNoDone : ∀ r' ∈ doneE, ¬r'.response_id = row.response_id :=
        nodup_append_cons_ne hND
      have hrowmem : row ∈ doneE ++ row :: rest.filter eligibleRow :=
        List.mem_append_right _ (List.mem_cons_self _ _)
      have hTokDone : ∀ r' ∈ doneE,
          ¬tok r'.response_id cfg.url_encryption_key =
            tok row.response_id cfg.url_encryption_key := by
        intro r' hr'
        exact hTok r' (List.mem_append_left _ hr') row hrowmem (hNoDone r' hr')
      obtain ⟨hpub, hrid, htit, hbod⟩ := (eligibleRow_iff row).mp hRE
      have hfree : lookupFS (fsOfRows tok cfg.url_encryption_key doneE)
          (canonPath tok row.response_id cfg.url_encryption_key) = none :=
        lookupFS_fsOfRows_none hTokDone
      rw [List.foldl_cons]
      set st0 : SyncState := ⟨idxOfRows tok cfg.url_encryption_key doneE, cr, up, sk,
        fsOfRows tok cfg.url_encryption_key doneE⟩ with hst0
      have hcur : stepCurrent st0 row = none := getIdx_idxOfRows_none hNoDone
      have htgt : stepTarget tok cfg st0 row =
          canonPath tok row.response_id cfg.url_encryption_key :=
        choose_of_first_free tok row.response_id cfg.url_encryption_key _ _ hfree
      have hmv := stepMoved_none tok cfg hcur
      have hfs1 : stepFs1 tok cfg false st0 row =
          fsOfRows tok cfg.url_encryption_key doneE :=
        stepFs1_unmoved tok cfg false hmv
      have halr : stepAlready tok cfg false st0 row = none := by
        unfold stepAlready
        rw [stepBaseline_real, hfs1, htgt]
        exact hfree
      have h1 : ¬row.is_published = false := by rw [hpub]; simp
      have h2 : ¬(row.response_id = [] ∨ row.title = [] ∨ row.body = []) := by
        push_neg
        exact ⟨hrid, htit, hbod⟩
      have hmain := syncStep_main tok cfg false st0 row h1 h2
        (fun hcon => by rw [halr] at hcon; exact absurd hcon.1 (by simp))
      have hstep : syncStep tok cfg false st0 row =
          ⟨idxOfRows tok cfg.url_encryption_key (doneE ++ [row]), cr + 1, up, sk,
            fsOfRows tok cfg.url_encryption_key (doneE ++ [row])⟩ := by
        rw [hmain, hcur, halr, htgt, hfs1, writeFS_fresh hfree,
          idxOfRows_append_single, fsOfRows_append]
        rfl
      rw [hstep]
      have hass : (doneE ++ [row]) ++ rest.filter eligibleRow =
          doneE ++ row :: rest.filter eligibleRow := by
        simp
      rw [ih (doneE ++ [row]) (cr + 1) up sk (by rw [hass]; exact hND)
        (by rw [hass]; exact hTok)]
      rw [hass]
      simp only [SyncState.mk.injEq, List.length_cons, true_and, and_true]
      omega

theorem scanEntry_cons {acc : Idx} {e : Str × Str} {rid : Str}
    (hsuf : ".md".toList.isSuffixOf e.1 = true) (hparse : parseId e.2 = some rid)
    (hrid : ¬rid = []) : scanEntry acc e = (rid, e.1) :: acc := by
  unfold scanEntry
  rw [if_pos hsuf, hparse]
  show (if rid = [] then acc else (rid, e.1) :: acc) = (rid, e.1) :: acc
  rw [if_neg hrid]

theorem scan_fsOfRows {tok : Str → Str → Str} {key : Str} {l : List PetitionRow}
    (hparse : ∀ r ∈ l, parseId (renderRow r) = some r.response_id ∧ ¬r.response_id = []) :
    scan_existing_petitions (fsOfRows tok key l) = idxOfRows tok key l := by
  unfold scan_existing_petitions
  suffices hgen : ∀ (m : List PetitionRow) (acc : Idx),
      (∀ r ∈ m, parseId (renderRow r) = some r.response_id ∧ ¬r.response_id = []) →
      (fsOfRows tok key m).foldl scanEntry acc =
        (m.map fun r => (r.response_id, canonPath tok r.response_id key)).reverse ++ acc by
    rw [hgen l [] hparse]
    simp [idxOfRows]
  intro m
  induction m with
  | nil => intro acc _; rfl
  | cons r rest ihm =>
    intro acc hp
    show ((canonPath tok r.response_id key, renderRow r) :: fsOfRows tok key rest).foldl
      scanEntry acc = _
    rw [List.foldl_cons]
    rw [scanEntry_cons (canonPath_suffix tok r.response_id key)
      (hp r (List.mem_cons_self _ _)).1 (hp r (List.mem_cons_self _ _)).2]
    rw [ihm ((r.response_id, canonPath tok r.response_id key) :: acc)
      (fun x hx => hp x (List.mem_cons_of_mem _ hx))]
    simp

theorem getIdx_canonical {m : Idx} {rid : Str} {F : Str → Str}
    (hval : ∀ e ∈ m, e.2 = F e.1) (hex : ∃ e ∈ m, e.1 = rid) :
    getIdx m rid = some (F rid) := by
  induction m with
  | nil => simp at hex
  | cons e rest ihm =>
    simp only [getIdx]
    by_cases he : e.1 = rid
    · rw [if_pos he]
      rw [hval e (List.mem_cons_self _ _), he]
    · rw [if_neg he]
      apply ihm (fun x hx => hval x (List.mem_cons_of_mem _ hx))
      obtain ⟨x, hx, hxr⟩ := hex
      rcases List.mem_cons.mp hx with h | h
      · subst h; exact absurd hxr he
      · exact ⟨x, h, hxr⟩

theorem getIdx_idxOfRows_mem {tok : Str → Str → Str} {key : Str}
    {l : List PetitionRow} {r : PetitionRow} (hmem : r ∈ l) :
    getIdx (idxOfRows tok key l) r.response_id =
      some (canonPath tok r.response_id key) := by
  apply getIdx_canonical (F := fun k => canonPath tok k key)
  · intro e he
    rw [idxOfRows, List.mem_reverse] at he
    obtain ⟨x, _, hxe⟩ := List.mem_map.mp he
    rw [← hxe]
  · refine ⟨(r.response_id, canonPath tok r.response_id key), ?_, rfl⟩
    rw [idxOfRows, List.mem_reverse]
    exact List.mem_map.mpr ⟨r, hmem, rfl⟩

theorem lookupFS_fsOfRows_mem {tok : Str → Str → Str} {key : Str}
    {l : List PetitionRow} {r : PetitionRow} (hmem : r ∈ l)
    (hND : (l.map (fun x => x.response_id)).Nodup)
    (hTok : ∀ r1 ∈ l, ∀ r2 ∈ l, ¬r1.response_id = r2.response_id →
      ¬tok r1.response_id key = tok r2.response_id key) :
    lookupFS (fsOfRows tok key l) (canonPath tok r.response_id key) =
      some (renderRow r) := by
  induction l with
  | nil => simp at hmem
  | cons x rest ihm =>
    show lookupFS ((canonPath tok x.response_id key, renderRow x) ::
      fsOfRows tok key rest) _ = _
    simp only [lookupFS]
    by_cases hx : canonPath tok x.response_id key = canonPath tok r.response_id key
    · rw [if_pos hx]
      have hxr : x = r := by
        have htokeq := canonPath_inj hx
        by_cases hid : x.response_id = r.response_id
        · rcases List.mem_cons.mp hmem with h | h
          · rw [h]
          · exfalso
            rw [List.map_cons, List.nodup_cons] at hND
            exact hND.1 (by rw [hid]; exact List.mem_map.mpr ⟨r, h, rfl⟩)
        · exact absurd htokeq
            (hTok x (List.mem_cons_self _ _) r hmem hid)
      rw [hxr]
    · rw [if_neg hx]
      have hrr : r ∈ rest := by
        rcases List.mem_cons.mp hmem with h | h
        · subst h; exact absurd rfl hx
        · exact h
      apply ihm hrr
      · rw [List.map_cons, List.nodup_cons] at hND
        exact hND.2
      · intro r1 h1 r2 h2
        exact hTok r1 (List.mem_cons_of_mem _ h1) r2 (List.mem_cons_of_mem _ h2)

theorem run2_fix_aux (tok : Str → Str → Str) (cfg : QualtricsConfig) (fsAll : FSt) :
    ∀ (rows : List PetitionRow) (idx : Idx) (cr up sk : Nat),
      (∀ r ∈ rows, eligibleRow r = true →
        getIdx idx r.response_id =
          some (canonPath tok r.response_id cfg.url_encryption_key) ∧
        lookupFS fsAll (canonPath tok r.response_id cfg.url_encryption_key) =
          some (renderRow r)) →
      rows.foldl (syncStep tok cfg false) ⟨idx, cr, up, sk, fsAll⟩ =
        ⟨(rows.foldl (syncStep tok cfg false) ⟨idx, cr, up, sk, fsAll⟩).index,
          cr, up, sk + rows.length, fsAll⟩ := by
  intro rows
  induction rows with
  | nil =>
    intro idx cr up sk _
    simp
  | cons row rest ihr =>
    intro idx cr up sk hyp
    rw [List.foldl_cons]
    cases hRE : eligibleRow row with
    | false =>
      rw [syncStep_inelig tok cfg false _ row hRE]
      show rest.foldl (syncStep tok cfg false) ⟨idx, cr, up, sk + 1, fsAll⟩ = _
      rw [ihr idx cr up (sk + 1) (fun r hr => hyp r (List.mem_cons_of_mem _ hr))]
      simp only [SyncState.mk.injEq, List.length_cons, true_and, and_true]
      omega
    | true =>
      obtain ⟨hgi, hlook⟩ := hyp row (List.mem_cons_self _ _) hRE
      obtain ⟨hpub, hrid, htit, hbod⟩ := (eligibleRow_iff row).mp hRE
      set st0 : SyncState := ⟨idx, cr, up, sk, fsAll⟩ with hst0
      have hcur : stepCurrent st0 row =
          some (canonPath tok row.response_id cfg.url_encryption_key) := hgi
      have htgt : stepTarget tok cfg st0 row =
          canonPath tok row.response_id cfg.url_encryption_key := by
        show choose_petition_path tok row.response_id cfg.url_encryption_key
          (stepCurrent st0 row) st0.fs = _
        rw [hcur]
        exact choose_keeps_canonical tok row.response_id cfg.url_encryption_key fsAll
      have hmv : stepMoved tok cfg st0 row = false :=
        stepMoved_some_eq tok cfg hcur htgt.symm
      have hfs1 : stepFs1 tok cfg false st0 row = fsAll :=
        stepFs1_unmoved tok cfg false hmv
      have halr : stepAlready tok cfg false st0 row = some (renderRow row) := by
        unfold stepAlready
        rw [stepBaseline_real, hfs1, htgt]
        exact hlook
      have h1 : ¬row.is_published = false := by rw [hpub]; simp
      have hsk := syncStep_skip3 tok cfg false st0 row h1
        (by push_neg; exact ⟨hrid, htit, hbod⟩) halr hmv
      rw [hsk, hfs1, htgt]
      show rest.foldl (syncStep tok cfg false)
        ⟨(row.response_id, canonPath tok row.response_id cfg.url_encryption_key) :: idx,
          cr, up, sk + 1, fsAll⟩ = _
      have hyp' : ∀ r ∈ rest, eligibleRow r = true →
          getIdx ((row.response_id,
            canonPath tok row.response_id cfg.url_encryption_key) :: idx) r.response_id =
            some (canonPath tok r.response_id cfg.url_encryption_key) ∧
          lookupFS fsAll (canonPath tok r.response_id cfg.url_encryption_key) =
            some (renderRow r) := by
        intro r hr hEr
        refine ⟨?_, (hyp r (List.mem_cons_of_mem _ hr) hEr).2⟩
        simp only [getIdx]
        by_cases hid : row.response_id = r.response_id
        · rw [if_pos hid, hid]
        · rw [if_neg hid]
          exact (hyp r (List.mem_cons_of_mem _ hr) hEr).1
      rw [ihr _ cr up (sk + 1) hyp']
      simp only [SyncState.mk.injEq, List.length_cons, true_and, and_true]
      omega

/-- C1 (counterexample): reconciliation is not idempotent for every row list.
A single eligible row whose id is `"a"` (with surrounding quotes), synced twice
starting from an empty directory, is re-created on the second run
(`created = 1`, not `0`): its rendered front matter strips back to `a`, so the
second run's scan does not recognise the document as belonging to `"a"`. -/
theorem second_run_recreates_quoted_id :
    (sync_rows tok0 [rowQuotedId] cfg0 false
      (sync_rows tok0 [rowQuotedId] cfg0 false []).fs).created = 1 := by decide

/-- C1 (amended): idempotence holds for runs from an empty directory when the
eligible rows have pairwise-distinct ids, their tokens do not collide, and
each eligible row renders round-trippably: after a first real run of
`sync_rows` on an empty directory, a second real run with the same rows
creates nothing, updates nothing, counts every row as skipped, and leaves the
directory untouched.  (From a non-empty directory a stray file sitting on a
row's candidate name, or a non-round-tripping id, can force creates or updates
on the second run — see the counterexample.) -/
theorem sync_rows_idempotent_from_empty (tok : Str → Str → Str)
    (rows : List PetitionRow) (cfg : QualtricsConfig)
    (hND : ((rows.filter eligibleRow).map (fun r => r.response_id)).Nodup)
    (hTok : ∀ r1 ∈ rows.filter eligibleRow, ∀ r2 ∈ rows.filter eligibleRow,
      ¬r1.response_id = r2.response_id →
      ¬tok r1.response_id cfg.url_encryption_key = tok r2.response_id cfg.url_encryption_key)
    (hrs : ∀ r ∈ rows, RowSafe r) :
    (sync_rows tok rows cfg false (sync_rows tok rows cfg false []).fs).created = 0 ∧
    (sync_rows tok rows cfg false (sync_rows tok rows cfg false []).fs).updated = 0 ∧
    (sync_rows tok rows cfg false (sync_rows tok rows cfg false []).fs).skipped =
      rows.length ∧
    (sync_rows tok rows cfg false (sync_rows tok rows cfg false []).fs).fs =
      (sync_rows tok rows cfg false []).fs := by
  have hrun1 : sync_rows tok rows cfg false [] =
      ⟨idxOfRows tok cfg.url_encryption_key (rows.filter eligibleRow),
        (rows.filter eligibleRow).length, 0,
        (rows.filter (fun r => !eligibleRow r)).length,
        fsOfRows tok cfg.url_encryption_key (rows.filter eligibleRow)⟩ := by
    unfold sync_rows
    rw [show (⟨scan_existing_petitions [], 0, 0, 0, []⟩ : SyncState) =
      ⟨idxOfRows tok cfg.url_encryption_key [], 0, 0, 0,
        fsOfRows tok cfg.url_encryption_key []⟩ from rfl]
    rw [run1_real_aux tok cfg rows [] 0 0 0 (by simpa using hND) (by simpa using hTok)]
    simp
  have hfs1 : (sync_rows tok rows cfg false []).fs =
      fsOfRows tok cfg.url_encryption_key (rows.filter eligibleRow) := by rw [hrun1]
  rw [hfs1]
  unfold sync_rows
  have hparse : ∀ r ∈ rows.filter eligibleRow,
      parseId (renderRow r) = some r.response_id ∧ ¬r.response_id = [] := by
    intro r hr
    have hE := (List.mem_filter.mp hr).2
    have hrm := (List.mem_filter.mp hr).1
    exact ⟨hrs r hrm hE, ((eligibleRow_iff r).mp hE).2.1⟩
  rw [scan_fsOfRows hparse]
  have hyp : ∀ r ∈ rows, eligibleRow r = true →
      getIdx (idxOfRows tok cfg.url_encryption_key (rows.filter eligibleRow))
        r.response_id = some (canonPath tok r.response_id cfg.url_encryption_key) ∧
      lookupFS (fsOfRows tok cfg.url_encryption_key (rows.filter eligibleRow))
        (canonPath tok r.response_id cfg.url_encryption_key) = some (renderRow r) := by
    intro r hr hE
    have hmem : r ∈ rows.filter eligibleRow := List.mem_filter.mpr ⟨hr, hE⟩
    exact ⟨getIdx_idxOfRows_mem hmem, lookupFS_fsOfRows_mem hmem hND hTok⟩
  rw [run2_fix_aux tok cfg _ rows _ 0 0 0 hyp]
  simp

theorem sync_rows_idempotent_from_empty_witness :
    (((([rowPothole, rowSecond].filter eligibleRow).map
        (fun r => r.response_id)).Nodup) ∧
      (∀ r1 ∈ [rowPothole, rowSecond].filter eligibleRow,
        ∀ r2 ∈ [rowPothole, rowSecond].filter eligibleRow,
        ¬r1.response_id = r2.response_id →
        ¬tok0 r1.response_id cfg0.url_encryption_key =
          tok0 r2.response_id cfg0.url_encryption_key) ∧
      (∀ r ∈ [rowPothole, rowSecond], RowSafe r)) ∧
    (sync_rows tok0 [rowPothole, rowSecond] cfg0 false
      (sync_rows tok0 [rowPothole, rowSecond] cfg0 false []).fs).created = 0 ∧
    (sync_rows tok0 [rowPothole, rowSecond] cfg0 false
      (sync_rows tok0 [rowPothole, rowSecond] cfg0 false []).fs).updated = 0 ∧
    (sync_rows tok0 [rowPothole, rowSecond] cfg0 false
      (sync_rows tok0 [rowPothole, rowSecond] cfg0 false []).fs).skipped = 2 ∧
    (sync_rows tok0 [rowPothole, rowSecond] cfg0 false
      (sync_rows tok0 [rowPothole, rowSecond] cfg0 false []).fs).fs =
      (sync_rows tok0 [rowPothole, rowSecond] cfg0 false []).fs :=
  ⟨⟨by decide, by decide, by decide⟩,
    sync_rows_idempotent_from_empty tok0 [rowPothole, rowSecond] cfg0
      (by decide) (by decide) (by decide)⟩

theorem stepBaseline_unmoved {st : SyncState} {row : PetitionRow}
    (tok : Str → Str → Str) (cfg : QualtricsConfig) (dry : Bool)
    (h : stepMoved tok cfg st row = false) :
    stepBaseline tok cfg dry st row = stepTarget tok cfg st row := by
  unfold stepBaseline
  rw [if_neg (by simp [h])]

theorem run1_dry_aux (tok : Str → Str → Str) (cfg : QualtricsConfig) :
    ∀ (rows doneE : List PetitionRow) (cr up sk : Nat),
      ((doneE ++ rows.filter eligibleRow).map (fun r => r.response_id)).Nodup →
      rows.foldl (syncStep tok cfg true)
        ⟨idxOfRows tok cfg.url_encryption_key doneE, cr, up, sk, []⟩ =
      ⟨idxOfRows tok cfg.url_encryption_key (doneE ++ rows.filter eligibleRow),
        cr + (rows.filter eligibleRow).length, up,
        sk + (rows.filter (fun r => !eligibleRow r)).length, []⟩ := by
  intro rows
  induction rows with
  | nil =>
    intro doneE cr up sk _
    simp
  | cons row rest ih =>
    intro doneE cr up sk hND
    cases hRE : eligibleRow row with
    | false =>
      have hfE : (row :: rest).filter eligibleRow = rest.filter eligibleRow := by
        rw [List.filter_cons]
        simp [hRE]
      rw [hfE] at hND ⊢
      have hfN : (row :: rest).filter (fun r => !eligibleRow r) =
          row :: rest.filter (fun r => !eligibleRow r) := by
        rw [List.filter_cons]
        simp [hRE]
      rw [hfN, List.foldl_cons, syncStep_inelig tok cfg true _ row hRE]
      show rest.foldl (syncStep tok cfg true)
        ⟨idxOfRows tok cfg.url_encryption_key doneE, cr, up, sk + 1, []⟩ = _
      rw [ih doneE cr up (sk + 1) hND]
      simp only [SyncState.mk.injEq, List.length_cons, true_and, and_true]
      omega
    | true =>
      have hfE : (row :: rest).filter eligibleRow = row :: rest.filter eligibleRow := by
        rw [List.filter_cons]
        simp [hRE]
      rw [hfE] at hND ⊢
      have hfN : (row :: rest).filter (fun r => !eligibleRow r) =
          rest.filter (fun r => !eligibleRow r) := by
        rw [List.filter_cons]
        simp [hRE]
      rw [hfN]
      have hNoDone : ∀ r' ∈ doneE, ¬r'.response_id = row.response_id :=
        nodup_append_cons_ne hND
      obtain ⟨hpub, hrid, htit, hbod⟩ := (eligibleRow_iff row).mp hRE
      rw [List.foldl_cons]
      set st0 : SyncState := ⟨idxOfRows tok cfg.url_encryption_key doneE, cr, up, sk, []⟩
        with hst0
      have hcur : stepCurrent st0 row = none := getIdx_idxOfRows_none hNoDone
      have hfree : lookupFS ([] : FSt)
          (canonPath tok row.response_id cfg.url_encryption_key) = none := rfl
      have htgt : stepTarget tok cfg st0 row =
          canonPath tok row.response_id cfg.url_encryption_key :=
        choose_of_first_free tok row.response_id cfg.url_encryption_key _ _ hfree
      have hmv := stepMoved_none tok cfg hcur
      have hfs1 : stepFs1 tok cfg true st0 row = ([] : FSt) :=
        stepFs1_unmoved tok cfg true hmv
      have halr : stepAlready tok cfg true st0 row = none := by
        unfold stepAlready
        rw [stepBaseline_unmoved tok cfg true hmv, hfs1]
        rfl
      have h1 : ¬row.is_published = false := by rw [hpub]; simp
      have h2 : ¬(row.response_id = [] ∨ row.title = [] ∨ row.body = []) := by
        push_neg
        exact ⟨hrid, htit, hbod⟩
      have hmain := syncStep_main tok cfg true st0 row h1 h2
        (fun hcon => by rw [halr] at hcon; exact absurd hcon.1 (by simp))
      have hstep : syncStep tok cfg true st0 row =
          ⟨idxOfRows tok cfg.url_encryption_key (doneE ++ [row]), cr + 1, up, sk, []⟩ := by
        rw [hmain, hcur, htgt, hfs1, idxOfRows_append_single]
        rfl
      rw [hstep]
      have hass : (doneE ++ [row]) ++ rest.filter eligibleRow =
          doneE ++ row :: rest.filter eligibleRow := by
        simp
      rw [ih (doneE ++ [row]) (cr + 1) up sk (by rw [hass]; exact hND)]
      rw [hass]
      simp only [SyncState.mk.injEq, List.length_cons, true_and, and_true]
      omega

/-- C3 (counterexample): dry-run and real-run counts differ when the same
response id appears twice in one batch.  On two copies of the same eligible
row from an empty directory, the real run reports
`(created, updated, skipped) = (1, 0, 1)` (the second copy matches the bytes
just written) while the dry run reports `(1, 1, 0)` (nothing was written, so
the second copy looks like an update). -/
theorem dry_run_parity_violated :
    (sync_rows tok0 [rowPothole, rowPothole] cfg0 false []).created = 1 ∧
    (sync_rows tok0 [rowPothole, rowPothole] cfg0 false []).updated = 0 ∧
    (sync_rows tok0 [rowPothole, rowPothole] cfg0 false []).skipped = 1 ∧
    (sync_rows tok0 [rowPothole, rowPothole] cfg0 true []).created = 1 ∧
    (sync_rows tok0 [rowPothole, rowPothole] cfg0 true []).updated = 1 ∧
    (sync_rows tok0 [rowPothole, rowPothole] cfg0 true []).skipped = 0 := by
  refine ⟨by decide, by decide, by decide, by decide, by decide, by decide⟩

/-- C3 (amended): a dry run never touches the directory, for every input; and
dry-run/real-run counts coincide on runs from an empty directory whose
eligible rows have pairwise-distinct ids and non-colliding tokens (both modes
then report `created = number of eligible rows`, `updated = 0`, the rest
skipped).  With duplicate ids in one batch the counts genuinely diverge — see
the counterexample. -/
theorem dry_run_parity :
    (∀ (tok : Str → Str → Str) (rows : List PetitionRow) (cfg : QualtricsConfig)
      (fs0 : FSt), (sync_rows tok rows cfg true fs0).fs = fs0) ∧
    (∀ (tok : Str → Str → Str) (rows : List PetitionRow) (cfg : QualtricsConfig),
      ((rows.filter eligibleRow).map (fun r => r.response_id)).Nodup →
      (∀ r1 ∈ rows.filter eligibleRow, ∀ r2 ∈ rows.filter eligibleRow,
        ¬r1.response_id = r2.response_id →
        ¬tok r1.response_id cfg.url_encryption_key =
          tok r2.response_id cfg.url_encryption_key) →
      (sync_rows tok rows cfg true []).created =
        (sync_rows tok rows cfg false []).created ∧
      (sync_rows tok rows cfg true []).updated =
        (sync_rows tok rows cfg false []).updated ∧
      (sync_rows tok rows cfg true []).skipped =
        (sync_rows tok rows cfg false []).skipped) := by
  refine ⟨sync_rows_dry_keeps_fs, ?_⟩
  intro tok rows cfg hND hTok
  have hdry : sync_rows tok rows cfg true [] =
      ⟨idxOfRows tok cfg.url_encryption_key (rows.filter eligibleRow),
        (rows.filter eligibleRow).length, 0,
        (rows.filter (fun r => !eligibleRow r)).length, []⟩ := by
    unfold sync_rows
    rw [show (⟨scan_existing_petitions [], 0, 0, 0, []⟩ : SyncState) =
      ⟨idxOfRows tok cfg.url_encryption_key [], 0, 0, 0, []⟩ from rfl]
    rw [run1_dry_aux tok cfg rows [] 0 0 0 (by simpa using hND)]
    simp
  have hreal : sync_rows tok rows cfg false [] =
      ⟨idxOfRows tok cfg.url_encryption_key (rows.filter eligibleRow),
        (rows.filter eligibleRow).length, 0,
        (rows.filter (fun r => !eligibleRow r)).length,
        fsOfRows tok cfg.url_encryption_key (rows.filter eligibleRow)⟩ := by
    unfold sync_rows
    rw [show (⟨scan_existing_petitions [], 0, 0, 0, []⟩ : SyncState) =
      ⟨idxOfRows tok cfg.url_encryption_key [], 0, 0, 0,
        fsOfRows tok cfg.url_encryption_key []⟩ from rfl]
    rw [run1_real_aux tok cfg rows [] 0 0 0 (by simpa using hND) (by simpa using hTok)]
    simp
  rw [hdry, hreal]
  exact ⟨rfl, rfl, rfl⟩

theorem dry_run_parity_witness :
    (sync_rows tok0 [rowPothole] cfg0 true [("petition-x.md".toList, docPlainA)]).fs =
      [("petition-x.md".toList, docPlainA)] ∧
    (((([rowPothole, rowSecond].filter eligibleRow).map
        (fun r => r.response_id)).Nodup) ∧
      (∀ r1 ∈ [rowPothole, rowSecond].filter eligibleRow,
        ∀ r2 ∈ [rowPothole, rowSecond].filter eligibleRow,
        ¬r1.response_id = r2.response_id →
        ¬tok0 r1.response_id cfg0.url_encryption_key =
          tok0 r2.response_id cfg0.url_encryption_key)) ∧
    ((sync_rows tok0 [rowPothole, rowSecond] cfg0 true []).created =
        (sync_rows tok0 [rowPothole, rowSecond] cfg0 false []).created ∧
      (sync_rows tok0 [rowPothole, rowSecond] cfg0 true []).updated =
        (sync_rows tok0 [rowPothole, rowSecond] cfg0 false []).updated ∧
      (sync_rows tok0 [rowPothole, rowSecond] cfg0 true []).skipped =
        (sync_rows tok0 [rowPothole, rowSecond] cfg0 false []).skipped) :=
  ⟨dry_run_parity.1 tok0 [rowPothole] cfg0 [("petition-x.md".toList, docPlainA)],
    ⟨by decide, by decide⟩,
    dry_run_parity.2 tok0 [rowPothole, rowSecond] cfg0 (by decide) (by decide)⟩
